import Mathlib

/-!
Shallow embedding of `tvb/core/adapters/input_tree.py` (class `InputTreeManager`)
and proofs about its specification claims.

Modelling conventions, used throughout:

* A Python tree-node dictionary is modelled by `Node`: a record of the keys the
  code reads (`NodeCore`) plus the two recursive keys `options`/`attributes`.
  A key that the code tests with `in`/`get` is an `Option` field; `none` means
  the key is missing (we conflate a missing key with an explicitly stored
  `None`, which the code itself conflates via `.get(...) is not None` at every
  decision point relevant to the claims).  `KEY_NAME` and `KEY_VALUE` are read
  unguarded by the code on every node/option they are used on, so they are
  plain fields (`value` is only meaningful on option nodes; `""` otherwise).
* Submitted / default values (HTTP POST values) are `PVal`: a string or a list
  of strings, exactly the shapes the submission dictionaries carry.
* Python in-place dictionary mutation is modelled by explicit state passing:
  functions that mutate their argument return the new value of that argument.
* A `KeyError` on an unguarded dictionary access is modelled by an `Option`
  result (`none` = the Python call raises).
* Python `float` is modelled by exact rationals (`Rat`); the values exercised
  here (decimal literals such as `1.5`, bound checks such as `15 > 10`) are
  computed exactly by Python floats as well.
-/

namespace TVB

/-- A `FilterChain` (external collaborator, `tvb.basic.filters.chain`):
modelled as the list of conditions added with `add_condition(field, op, value)`.
Only its construction is relevant here; evaluation happens in the external
store. -/
structure Filter where
  conds : List (String × String × String) := []
  deriving DecidableEq, Repr

/-- The opaque field token `FilterChain.datatype` used when composing filter
conditions (external constant). -/
def FILTER_DATATYPE : String := "DataType"

/-- Append one condition, as `FilterChain.add_condition` does. -/
def Filter.addCondition (f : Filter) (field op value : String) : Filter :=
  { conds := f.conds ++ [(field, op, value)] }

/-- A raw submitted value: HTTP POST dictionaries map names to strings or to
lists of strings (spec section 3, `FlatSubmission`). -/
inductive PVal where
  | str (s : String)
  | list (l : List String)
  deriving DecidableEq, Repr

/-- The non-recursive keys of one tree-node dictionary.  Field names follow
the `KEY_*` constants of the source (`type_` stands for `KEY_TYPE`,
`elementType` for `KEY_DTYPE`, `field_` for `xml_reader.ATT_FIELD`). -/
structure NodeCore where
  name : String
  type_ : Option String := none
  label : Option String := none
  default : Option PVal := none
  required : Option Bool := none
  value : String := ""
  minValue : Option Rat := none
  maxValue : Option Rat := none
  elementType : Option String := none
  quantifier : Option String := none
  uiHidden : Bool := false
  conditions : Option Filter := none
  datatype : Option String := none
  warning : Option String := none
  filterable : Option String := none
  dynamic : Bool := false
  field_ : Option String := none
  deriving DecidableEq, Repr

mutual
/-- One tree node: its scalar keys plus `KEY_OPTIONS` and `KEY_ATTRIBUTES`. -/
inductive Node where
  | mk (core : NodeCore) (options : NLOpt) (attributes : NLOpt)
  deriving DecidableEq, Repr

/-- An optional list of nodes (a `KEY_OPTIONS`/`KEY_ATTRIBUTES` entry that may
be missing). -/
inductive NLOpt where
  | none
  | some (l : NodeList)
  deriving DecidableEq, Repr

/-- A list of tree nodes. -/
inductive NodeList where
  | nil
  | cons (head : Node) (tail : NodeList)
  deriving DecidableEq, Repr
end

def Node.core : Node → NodeCore
  | .mk c _ _ => c

def Node.options : Node → NLOpt
  | .mk _ o _ => o

def Node.attributes : Node → NLOpt
  | .mk _ _ a => a

def NodeList.append : NodeList → NodeList → NodeList
  | .nil, l => l
  | .cons n t, l => .cons n (t.append l)

/-- The names (`KEY_NAME`) of the nodes of a list, in order. -/
def NodeList.names : NodeList → List String
  | .nil => []
  | .cons n l => n.core.name :: l.names

def NodeList.length : NodeList → Nat
  | .nil => 0
  | .cons _ l => l.length + 1

/-- Convert to an ordinary `List` (for stating properties). -/
def NodeList.toList : NodeList → List Node
  | .nil => []
  | .cons n l => n :: l.toList

def NodeList.ofList : List Node → NodeList
  | [] => .nil
  | n :: l => .cons n (NodeList.ofList l)

/-! ## Constants of the source module -/

def KEYWORD_PARAMS : String := "_parameters_"
def KEYWORD_SEPARATOR : String := "_"
def KEYWORD_OPTION : String := "option_"

/-- Modelled from the spec: the type tokens of the external `xml_reader`
module (`TYPE_SELECT`, ..., `ALL_TYPES`).  The spec (section 3) fixes the
closed set of static types; the literal `'dict'` comparison in
`prepare_param_names` fixes `TYPE_DICT = "dict"`. -/
def TYPE_SELECT : String := "select"

def TYPE_MULTIPLE : String := "selectMultiple"
def TYPE_STR : String := "str"
def TYPE_INT : String := "int"
def TYPE_FLOAT : String := "float"
def TYPE_BOOL : String := "bool"
def TYPE_ARRAY : String := "array"
def TYPE_LIST : String := "list"
def TYPE_DICT : String := "dict"
def TYPE_UPLOAD : String := "upload"

/-- Modelled from the spec: `xml_reader.ALL_TYPES`, the static primitive
types; a declared type outside this set names a persisted-entity class. -/
def STATIC_ACCEPTED_TYPES : List String :=
  [TYPE_SELECT, TYPE_MULTIPLE, TYPE_STR, TYPE_INT, TYPE_FLOAT, TYPE_BOOL,
   TYPE_ARRAY, TYPE_LIST, TYPE_DICT, TYPE_UPLOAD]

def MAXIMUM_DATA_TYPES_DISPLAYED : Nat := 50

def WARNING_OVERFLOW : String :=
  "Too many entities in storage; some of them were not returned, to avoid overcrowding. " ++
  "Use filters, to make the list small enough to fit in here!"

/-! ## String helpers (Python string operations) -/

/-- Python `s.endswith(suffix)`. -/
def pyEndswith (s suf : String) : Bool :=
  suf.data.isSuffixOf s.data

/-- Index of the first occurrence of `sub` in `s`, `-1` if absent
(Python `s.find(sub)`). -/
def pyFindAux (s sub : List Char) (acc : Nat) : Int :=
  match s with
  | [] => if sub = [] then acc else -1
  | _ :: t => if sub.isPrefixOf s then acc else pyFindAux t sub (acc + 1)

def pyFind (s sub : String) : Int :=
  pyFindAux s.data sub.data 0

/-- Python `sub in s` (substring containment). -/
def pyContains (s sub : String) : Bool :=
  pyFind s sub != -1

/-- Python slice `s[:stop]` with a possibly negative `stop`. -/
def pySliceTo (s : String) (stop : Int) : String :=
  if stop < 0 then ⟨s.data.take (s.data.length - (-stop).toNat)⟩
  else ⟨s.data.take stop.toNat⟩

/-- Python slice `s[start:]` with a non-negative `start`. -/
def pySliceFrom (s : String) (start : Int) : String :=
  ⟨s.data.drop start.toNat⟩

/-- Python `s.strip()` (as a character list). -/
def pyStrip (s : String) : List Char :=
  ((s.data.dropWhile Char.isWhitespace).reverse.dropWhile Char.isWhitespace).reverse

/-- Python `s.split(sep)` for a non-empty separator, scanning left to right
without overlap.  (`skip` counts separator characters still to be consumed
after a match.) -/
def pySplitAux (sep : List Char) : List Char → Nat → List Char → List (List Char) →
    List (List Char)
  | [], _, cur, acc => acc ++ [cur]
  | _ :: t, Nat.succ k, cur, acc => pySplitAux sep t k cur acc
  | c :: t, 0, cur, acc =>
    if sep.isPrefixOf (c :: t) then pySplitAux sep t (sep.length - 1) [] (acc ++ [cur])
    else pySplitAux sep t 0 (cur ++ [c]) acc

def pySplitOn (s sep : String) : List String :=
  if sep.data = [] then [s]
  else (pySplitAux sep.data s.data 0 [] []).map String.mk

/-- Python truthiness of a submitted value (`bool(v)`). -/
def PVal.pyBool : PVal → Bool
  | .str s => s ≠ ""
  | .list l => l ≠ []

/-- Python `str(v)` on a submitted value (list repr as Python prints it). -/
def PVal.pyStr : PVal → String
  | .str s => s
  | .list l => "[" ++ String.intercalate ", " (l.map (fun x => "'" ++ x ++ "'")) ++ "]"

/-! ## `InputTreeManager.form_prefix` -/

/-- `InputTreeManager.form_prefix(input_param, prefix, option_prefix)`:
compose the flat-name prefix for children of `input_param`. -/
def formPfx (inputParam : String) (pfx : Option String := none)
    (optPfx : Option String := none) : String :=
  let hasP : Bool := match pfx with
    | Option.some p => p != ""
    | Option.none => false
  let np : String := if hasP then pfx.getD "" else ""
  let np : String :=
    if hasP && !(pyEndswith np KEYWORD_SEPARATOR) then np ++ KEYWORD_SEPARATOR else np
  let np : String := np ++ inputParam ++ KEYWORD_PARAMS
  match optPfx with
  | Option.some ov => np ++ KEYWORD_OPTION ++ ov ++ KEYWORD_SEPARATOR
  | Option.none => np

/-! ## `InputTreeManager.flatten` -/

mutual
/-- `InputTreeManager.flatten(params_list, prefix)`: flatten the tree into a
single list, stripping `options`/`attributes` from each emitted copy and
renaming a node by prepending the prefix whenever it carries `KEY_TYPE`. -/
def flatten (paramsList : NodeList) (pfx : Option String) : NodeList :=
  match paramsList with
  | .nil => .nil
  | .cons p rest => (flattenOne pfx p).append (flatten rest pfx)

/-- Handling of a single `param` in the loop body of `flatten`. -/
def flattenOne (pfx : Option String) (p : Node) : NodeList :=
  match p with
  | .mk core opts attrs =>
    let newName := match pfx with
      | Option.some s => if core.type_.isSome then s ++ core.name else core.name
      | Option.none => core.name
    let entry : Node := .mk { core with name := newName } .none .none
    let optExtra : NodeList := match opts with
      | .some l => flattenOptsScan core.name pfx l
      | .none => .nil
    let attExtra : NodeList := match attrs with
      | .some l => flatten l (Option.some (formPfx core.name pfx Option.none))
      | .none => .nil
    .cons entry (optExtra.append attExtra)

/-- The `for option in param[KEY_OPTIONS]` loop of `flatten`: recurse into the
attributes of every option that has them, under the option-qualified prefix. -/
def flattenOptsScan (paramName : String) (pfx : Option String) (opts : NodeList) : NodeList :=
  match opts with
  | .nil => .nil
  | .cons (.mk _ _ .none) rest => flattenOptsScan paramName pfx rest
  | .cons (.mk oc _ (.some oattrs)) rest =>
    (flatten oattrs (Option.some (formPfx paramName pfx (Option.some oc.value)))).append
      (flattenOptsScan paramName pfx rest)
end

example :
    (flatten (.cons (.mk { name := "a", type_ := Option.some "t" } .none
        (.some (.cons (.mk { name := "b", type_ := Option.some "t" } .none .none) .nil)))
        .nil) Option.none).names
      = ["a", "a_parameters_b"] := by decide

example :
    (flatten (.cons (.mk { name := "a", type_ := Option.some TYPE_SELECT }
        (.some (.cons (.mk { name := "lab", value := "v" } .none
          (.some (.cons (.mk { name := "b", type_ := Option.some "t" } .none .none) .nil)))
          .nil))
        .none) .nil) Option.none).names
      = ["a", "a_parameters_option_v_b"] := by decide

/-! ## Flat dictionaries (kwargs / data / submissions) -/

/-- A Python dictionary with string keys, in insertion order. -/
abbrev Kwargs := List (String × PVal)

/-- `d.get(k)` / `d[k]` (first binding; keys are unique by construction). -/
def kwLookup (kw : Kwargs) (k : String) : Option PVal :=
  match kw with
  | [] => Option.none
  | (k', v) :: t => if k' = k then Option.some v else kwLookup t k

/-- `k in d`. -/
def kwMem (kw : Kwargs) (k : String) : Bool :=
  (kwLookup kw k).isSome

/-- `d[k] = v`: replace in place if present, else append (Python dicts keep
the original position of an updated key). -/
def kwInsert (kw : Kwargs) (k : String) (v : PVal) : Kwargs :=
  match kw with
  | [] => [(k, v)]
  | (k', v') :: t => if k' = k then (k', v) :: t else (k', v') :: kwInsert t k v

/-- `del d[k]`. -/
def kwDelete (kw : Kwargs) (k : String) : Kwargs :=
  kw.filter (fun p => p.1 ≠ k)

def kwKeys (kw : Kwargs) : List String :=
  kw.map Prod.fst

/-! ## `InputTreeManager.fill_defaults`

The Python function returns a list of shallow copies, but the loop
`new_options[i] = fill_defaults([option], ...)[0]` writes through the shared
`options` list object of the caller's node.  `fillDefaults` is the returned
tree; `fillDefaultsEffect` is what the caller's own tree looks like after the
call (its node dictionaries keep their `default`s, but the shared option
lists have their selected entries replaced).  The result is `none` when the
call raises `KeyError` (unguarded `param[KEY_TYPE]` access on a node that has
options, is named in `data`, and carries no type). -/

/-- The `selected_values` computed for a node's options loop: absent, the
multi-select raw value, or the single value wrapped in a one-element list. -/
inductive SelVals where
  | empty
  | multi (pv : PVal)
  | single (pv : PVal)
  deriving DecidableEq, Repr

/-- Python `x in y` for a string `x` and a submitted value `y` (`in` on a
string is substring containment, on a list it is membership). -/
def pyInVal (x : String) : PVal → Bool
  | .str s => pyContains s x
  | .list l => l.contains x

/-- `option[KEY_VALUE] in selected_values` of the `fill_defaults` loop. -/
def SelVals.memB (sv : SelVals) (v : String) : Bool :=
  match sv with
  | .empty => false
  | .multi pv => pyInVal v pv
  | .single pv => PVal.str v = pv

/-- The `selected_values` computation of `fill_defaults` (including the
unguarded `param[KEY_TYPE]` access when the name is in `data`;
`none` = `KeyError`). -/
def computeSelVals (data : Kwargs) (name : String) (ty : Option String) : Option SelVals :=
  match kwLookup data name with
  | Option.none => Option.some SelVals.empty
  | Option.some dv =>
    match ty with
    | Option.none => Option.none  -- KeyError: param[KEY_TYPE]
    | Option.some t =>
      Option.some (if t = TYPE_MULTIPLE then SelVals.multi dv else SelVals.single dv)

mutual
/-- `InputTreeManager.fill_defaults(adapter_interface, data,
fill_unselected_branches)`: the returned tree. -/
def fillDefaults (adapterInterface : NodeList) (data : Kwargs) (fub : Bool) :
    Option NodeList :=
  match adapterInterface with
  | .nil => Option.some .nil
  | .cons p rest =>
    match fillDefaultsOne data fub p with
    | Option.none => Option.none
    | Option.some p' =>
      match fillDefaults rest data fub with
      | Option.none => Option.none
      | Option.some rest' => Option.some (.cons p' rest')

/-- The recursion of `fill_defaults` into a node's `attributes`. -/
def fillDefaultsAttrs (data : Kwargs) (fub : Bool) (attrs : NLOpt) : Option NLOpt :=
  match attrs with
  | .none => Option.some NLOpt.none
  | .some l =>
    match fillDefaults l data fub with
    | Option.none => Option.none
    | Option.some l' => Option.some (NLOpt.some l')

/-- The `new_options` computation of the `fill_defaults` loop body. -/
def fillDefaultsOpts (data : Kwargs) (fub : Bool) (core : NodeCore) (opts : NLOpt) :
    Option NLOpt :=
  match opts with
  | .none => Option.some NLOpt.none
  | .some l =>
    if kwMem data core.name || fub then
      match computeSelVals data core.name core.type_ with
      | Option.none => Option.none
      | Option.some sv =>
        match fillDefaultsOptsScan sv data fub l with
        | Option.none => Option.none
        | Option.some l' => Option.some (NLOpt.some l')
    else Option.some (NLOpt.some l)

/-- The loop body of `fill_defaults` for a single `param`. -/
def fillDefaultsOne (data : Kwargs) (fub : Bool) (p : Node) : Option Node :=
  match p with
  | .mk core opts attrs =>
    match fillDefaultsAttrs data fub attrs with
    | Option.none => Option.none
    | Option.some attrs' =>
      match fillDefaultsOpts data fub core opts with
      | Option.none => Option.none
      | Option.some opts' =>
        Option.some (.mk
          { core with default :=
              match kwLookup data core.name with
              | Option.some dv => Option.some dv
              | Option.none => core.default }
          opts' attrs')

def fillDefaultsOptsScan (sv : SelVals) (data : Kwargs) (fub : Bool) (opts : NodeList) :
    Option NodeList :=
  match opts with
  | .nil => Option.some .nil
  | .cons o rest =>
    if sv.memB o.core.value || fub then
      match fillDefaultsOne data fub o with
      | Option.none => Option.none
      | Option.some o' =>
        match fillDefaultsOptsScan sv data fub rest with
        | Option.none => Option.none
        | Option.some rest' => Option.some (.cons o' rest')
    else
      match fillDefaultsOptsScan sv data fub rest with
      | Option.none => Option.none
      | Option.some rest' => Option.some (.cons o rest')

/-- The caller's tree after `fill_defaults(tree, data, fub)` returns: node
dictionaries are untouched (the copies received the new defaults), but each
shared option list has its selected entries overwritten with their filled
copies, recursively along `attributes` chains. -/
def fillDefaultsEffect (l : NodeList) (data : Kwargs) (fub : Bool) : Option NodeList :=
  match l with
  | .nil => Option.some .nil
  | .cons p rest =>
    match fillDefaultsEffectOne data fub p with
    | Option.none => Option.none
    | Option.some p' =>
      match fillDefaultsEffect rest data fub with
      | Option.none => Option.none
      | Option.some rest' => Option.some (.cons p' rest')

/-- The recursion of the caller-side effect into a node's `attributes`. -/
def fillDefaultsEffAttrs (data : Kwargs) (fub : Bool) (attrs : NLOpt) : Option NLOpt :=
  match attrs with
  | .none => Option.some NLOpt.none
  | .some l =>
    match fillDefaultsEffect l data fub with
    | Option.none => Option.none
    | Option.some l' => Option.some (NLOpt.some l')

/-- Effect of the `fill_defaults` loop body on the caller's own `param`. -/
def fillDefaultsEffectOne (data : Kwargs) (fub : Bool) (p : Node) : Option Node :=
  match p with
  | .mk core opts attrs =>
    match fillDefaultsEffAttrs data fub attrs with
    | Option.none => Option.none
    | Option.some attrs' =>
      match fillDefaultsOpts data fub core opts with
      | Option.none => Option.none
      | Option.some opts' => Option.some (.mk core opts' attrs')
end

/-! ## `InputTreeManager.append_required_defaults`

The Python method mutates `kwargs` in place; the model returns the new
`kwargs`.  `none` models the two possible `KeyError`s: the unguarded
`entry[KEY_TYPE]` read in the first loop and the unguarded
`kwargs[entry[KEY_NAME]]` read in the second loop. -/

/-- First loop of `append_required_defaults`: inject the declared default of
every required, defaulted, non-DICT entry whose name was not submitted. -/
def appendRDLoop1 (kwargs : Kwargs) (inputs : NodeList) : Option Kwargs :=
  match inputs with
  | .nil => Option.some kwargs
  | .cons (.mk core _ _) rest =>
    match (if kwMem kwargs core.name then Option.some kwargs
           else if core.required != Option.some true then Option.some kwargs
           else
             match core.default with
             | Option.none => Option.some kwargs
             | Option.some d =>
               match core.type_ with
               | Option.none => Option.none  -- KeyError: entry[KEY_TYPE]
               | Option.some t =>
                 Option.some (if t = TYPE_DICT then kwargs else kwInsert kwargs core.name d)) with
    | Option.none => Option.none
    | Option.some kw' => appendRDLoop1 kw' rest

mutual
/-- Second loop of `append_required_defaults`: for every required entry with
options, recurse (full method: both loops) into the attributes of each option
whose value equals the submitted value. -/
def appendRDLoop2 (kwargs : Kwargs) (inputs : NodeList) : Option Kwargs :=
  match inputs with
  | .nil => Option.some kwargs
  | .cons (.mk core opts _) rest =>
    match appendRDStep2 kwargs core opts with
    | Option.none => Option.none
    | Option.some kw' => appendRDLoop2 kw' rest

/-- One entry of the second pass: enter the option loop when the entry is
required and has a (non-`None`) option list. -/
def appendRDStep2 (kwargs : Kwargs) (core : NodeCore) (opts : NLOpt) : Option Kwargs :=
  match opts with
  | .some ol =>
    if core.required = Option.some true then appendRDLoopOpts kwargs core.name ol
    else Option.some kwargs
  | .none => Option.some kwargs

/-- The `for option in entry[KEY_OPTIONS]` loop of the second pass. -/
def appendRDLoopOpts (kwargs : Kwargs) (entryName : String) (opts : NodeList) :
    Option Kwargs :=
  match opts with
  | .cons (.mk oc _ oattrs) rest =>
    match appendRDOptStep kwargs entryName oc oattrs with
    | Option.none => Option.none
    | Option.some kw' => appendRDLoopOpts kw' entryName rest
  | .nil => Option.some kwargs

/-- One option of the second pass: the unguarded `kwargs[entry[KEY_NAME]]`
read (`none` = `KeyError`), then, when the option was the submitted value and
has attributes, the recursive `append_required_defaults` call (both loops). -/
def appendRDOptStep (kwargs : Kwargs) (entryName : String) (oc : NodeCore)
    (oattrs : NLOpt) : Option Kwargs :=
  match kwLookup kwargs entryName with
  | Option.none => Option.none  -- KeyError: kwargs[entry[KEY_NAME]]
  | Option.some kv =>
    match oattrs with
    | .some al =>
      if PVal.str oc.value = kv then
        match appendRDLoop1 kwargs al with
        | Option.none => Option.none
        | Option.some kw1 => appendRDLoop2 kw1 al
      else Option.some kwargs
    | .none => Option.some kwargs
end

/-- `InputTreeManager.append_required_defaults(kwargs, algorithm_inputs)` for
a non-`None` input list: first loop, then the recursive second loop. -/
def appendRDMain (kwargs : Kwargs) (inputs : NodeList) : Option Kwargs :=
  match appendRDLoop1 kwargs inputs with
  | Option.none => Option.none
  | Option.some kw1 => appendRDLoop2 kw1 inputs

/-- `InputTreeManager.append_required_defaults` (with the `None` input
short-circuit). -/
def appendRequiredDefaults (kwargs : Kwargs) (algorithmInputs : NLOpt) : Option Kwargs :=
  match algorithmInputs with
  | .none => Option.some kwargs
  | .some l => appendRDMain kwargs l

example :
    appendRequiredDefaults []
      (.some (.cons (.mk
        { name := "x", type_ := Option.some TYPE_INT, required := Option.some true,
          default := Option.some (.str "3") }
        .none .none) .nil))
      = Option.some [("x", PVal.str "3")] := by decide

example :
    -- required node with (non-empty) options, no default, name unsubmitted:
    -- the second loop's kwargs[name] read raises KeyError
    appendRequiredDefaults []
      (.some (.cons (.mk
        { name := "x", type_ := Option.some TYPE_SELECT, required := Option.some true }
        (.some (.cons (.mk { name := "o", value := "v" } .none .none) .nil)) .none) .nil))
      = Option.none := by decide

/-! ## `InputTreeManager.select_simulator_inputs`

The Python method freely mutates the nodes of the tree it is given
(`param[KEY_LABEL]`, `param[KEY_DEFAULT]`, `option[KEY_ATTRIBUTES]`,
`option[KEY_DEFAULT]`), and its returned `result` list shares those mutated
node objects.  `selectSimList` computes the returned list; `selectSimEffectList`
computes what the caller's own tree looks like after the call. -/

/-- A selection dictionary entry: `(KEY_PARAMETER_CHECKED, KEY_SAVED_VALUE)`. -/
abbrev Sel := List (String × (Bool × PVal))

def selLookup (sel : Sel) (k : String) : Option (Bool × PVal) :=
  match sel with
  | [] => Option.none
  | (k', v) :: t => if k' = k then Option.some v else selLookup t k

/-- The in-place label/default mutation performed on each visited `param`. -/
def selCoreMut (sel : Sel) (pfx : String) (core : NodeCore) : NodeCore :=
  let lbl : Option String :=
    match core.label with
    | Option.some lb => if pfx ≠ "" then Option.some (pfx ++ "_" ++ lb) else Option.some lb
    | Option.none => Option.none
  let dft : Option PVal :=
    match selLookup sel core.name with
    | Option.some (true, sv) => Option.some sv
    | _ => core.default
  { core with label := lbl, default := dft }

mutual
/-- `InputTreeManager.select_simulator_inputs(full_tree, selection_dictionary,
prefix)`: the returned pruned list. -/
def selectSimList (sel : Sel) (pfx : String) (l : NodeList) : NodeList :=
  match l with
  | .nil => .nil
  | .cons (.mk core opts attrs) rest =>
    let core2 := selCoreMut sel pfx core
    match selLookup sel core.name with
    | Option.some (true, sv) =>
      let opts' : NLOpt := match opts with
        | .some ol => .some (selectSimOptsChecked sel pfx sv ol)
        | .none => .none
      .cons (.mk core2 opts' attrs) (selectSimList sel pfx rest)
    | Option.some (false, sv) =>
      let promoted : NodeList := match opts with
        | .some ol => selectSimPromote sel pfx sv ol
        | .none => .nil
      promoted.append (selectSimList sel pfx rest)
    | Option.none => selectSimList sel pfx rest

/-- The checked-node option loop: reassign each option's attributes to the
recursively selected list (same prefix) and stamp the saved value as the
option's default. -/
def selectSimOptsChecked (sel : Sel) (pfx : String) (sv : PVal) (opts : NodeList) : NodeList :=
  match opts with
  | .nil => .nil
  | .cons (.mk oc oopts .none) rest =>
    .cons (.mk oc oopts .none) (selectSimOptsChecked sel pfx sv rest)
  | .cons (.mk oc oopts (.some oattrs)) rest =>
    .cons (.mk { oc with default := Option.some sv } oopts
        (.some (selectSimList sel pfx oattrs)))
      (selectSimOptsChecked sel pfx sv rest)

/-- The unchecked-node option loop: promote the recursively selected
attributes of every option matching the saved value, under the extended
prefix `option_value + '_' + prefix`. -/
def selectSimPromote (sel : Sel) (pfx : String) (sv : PVal) (opts : NodeList) : NodeList :=
  match opts with
  | .nil => .nil
  | .cons (.mk _ _ .none) rest => selectSimPromote sel pfx sv rest
  | .cons (.mk oc _ (.some oattrs)) rest =>
    if PVal.str oc.value = sv then
      (selectSimList sel (oc.value ++ "_" ++ pfx) oattrs).append
        (selectSimPromote sel pfx sv rest)
    else selectSimPromote sel pfx sv rest

/-- The caller's tree after `select_simulator_inputs` returns: every visited
node keeps its position but carries the in-place label/default mutations; a
checked node's options carry the reassigned attributes, an unchecked matching
option's attribute nodes carry the recursive mutations. -/
def selectSimEffectList (sel : Sel) (pfx : String) (l : NodeList) : NodeList :=
  match l with
  | .nil => .nil
  | .cons (.mk core opts attrs) rest =>
    let core2 := selCoreMut sel pfx core
    let opts' : NLOpt :=
      match opts with
      | .some ol =>
        match selLookup sel core.name with
        | Option.some (true, sv) => .some (selectSimOptsChecked sel pfx sv ol)
        | Option.some (false, sv) => .some (selectSimEffPromote sel pfx sv ol)
        | Option.none => .some ol
      | .none => .none
    .cons (.mk core2 opts' attrs) (selectSimEffectList sel pfx rest)

/-- Deep effect of the promotion loop on an unchecked node's options: the
option list keeps its entries, but a matching option's attribute nodes are
mutated by the recursive call. -/
def selectSimEffPromote (sel : Sel) (pfx : String) (sv : PVal) (opts : NodeList) : NodeList :=
  match opts with
  | .nil => .nil
  | .cons (.mk oc oopts .none) rest =>
    .cons (.mk oc oopts .none) (selectSimEffPromote sel pfx sv rest)
  | .cons (.mk oc oopts (.some oattrs)) rest =>
    if PVal.str oc.value = sv then
      .cons (.mk oc oopts (.some (selectSimEffectList sel (oc.value ++ "_" ++ pfx) oattrs)))
        (selectSimEffPromote sel pfx sv rest)
    else .cons (.mk oc oopts (.some oattrs)) (selectSimEffPromote sel pfx sv rest)
end

/-- `InputTreeManager.select_simulator_inputs` with the `None` short-circuit. -/
def selectSimulatorInputs (fullTree : Option NodeList) (sel : Sel) (pfx : String := "") :
    Option NodeList :=
  match fullTree with
  | Option.none => Option.none
  | Option.some l => Option.some (selectSimList sel pfx l)

/-! ## Native values produced by submission parsing -/

/-- A value of a parsed DICT entry (`_get_dictionary` coerces by the declared
element type: float, int, str or a space-separated float array). -/
inductive DVal where
  | r (q : Rat)
  | i (n : Int)
  | s (str : String)
  | arr (l : List Rat)
  deriving DecidableEq, Repr

/-- A native value in the `kwa` result of `convert_ui_inputs`.  `pv` is a
submitted value passed through unchanged; `obj` stands for an opaque Python
object produced by an external collaborator (loaded entity, decoded JSON,
equation-derived array). -/
inductive OVal where
  | none
  | b (bv : Bool)
  | i (n : Int)
  | r (q : Rat)
  | pv (v : PVal)
  | arr (l : List Rat)
  | dict (d : List (String × DVal))
  | obj (tag : String)
  deriving DecidableEq, Repr

/-! ## Python numeric literal parsing -/

def digitsToNat (l : List Char) : Nat :=
  l.foldl (fun acc c => acc * 10 + (c.toNat - '0'.toNat)) 0

/-- Python `int(s)` on a string: optional sign, non-empty digit run
(`None` = `ValueError`).  Exotic forms (underscores, unicode digits) are out
of modelled scope. -/
def pyParseInt (s : String) : Option Int :=
  let t := pyStrip s
  let (sign, rest) : Int × List Char :=
    match t with
    | '+' :: r => (1, r)
    | '-' :: r => (-1, r)
    | r => (1, r)
  if rest ≠ [] && rest.all Char.isDigit then Option.some (sign * digitsToNat rest)
  else Option.none

/-- Python `float(s)` on a plain decimal literal: optional sign, digits with
an optional fractional part (`None` = `ValueError`).  Exponents and the
`inf`/`nan` words are out of modelled scope; the resulting value is exact
(`Rat`), which agrees with Python floats on the short literals and bound
comparisons exercised here. -/
def pyParseFloat (s : String) : Option Rat :=
  let t := pyStrip s
  let (sign, rest) : Int × List Char :=
    match t with
    | '+' :: r => (1, r)
    | '-' :: r => (-1, r)
    | r => (1, r)
  let ipart := rest.takeWhile Char.isDigit
  let rest2 := rest.dropWhile Char.isDigit
  match rest2 with
  | [] => if ipart ≠ [] then Option.some (mkRat (sign * digitsToNat ipart) 1) else Option.none
  | '.' :: fr =>
    let fpart := fr.takeWhile Char.isDigit
    if fr.dropWhile Char.isDigit ≠ [] then Option.none
    else if ipart = [] && fpart = [] then Option.none
    else Option.some (mkRat (sign * (digitsToNat ipart * 10 ^ fpart.length + digitsToNat fpart))
      (10 ^ fpart.length))
  | _ => Option.none

/-- Modelled from the spec: `tvb.core.utils.string2array` (not under `src/`).
Spec section 4.4: manual-entry values are separator-joined numeric strings
parsed per declared element type; upload values are whitespace-separated
numeric literals.  Empty tokens (leading/trailing separators, blanks) are
skipped; a non-numeric token is a parse error. -/
def string2array (s sep : String) (dtype : Option String) : Except String (List Rat) :=
  let toks := ((pySplitOn s sep).map (fun t => String.mk (pyStrip t))).filter (fun t => t ≠ "")
  toks.foldr
    (fun t acc =>
      match acc with
      | .error e => .error e
      | .ok l =>
        match (if dtype = Option.some "int" then (pyParseInt t).map (fun n => (n : Rat))
               else pyParseFloat t) with
        | Option.some q => .ok (q :: l)
        | Option.none => .error ("ValueError: could not parse " ++ t))
    (.ok [])

/-! ## External collaborators -/

/-- One row returned by `dao.get_values_of_datatype` (fixed-position tuple
`(id, _, gid, description, date, origin_label, extra_label, ...)`; a falsy
`description`/`origin_label`/`extra_label` is `none`). -/
structure DRow where
  id : Int
  gid : String
  description : Option String := none
  date : String := ""
  fromLabel : Option String := none
  extraLabel : Option String := none
  deriving DecidableEq, Repr

/-- `dao.get_category_by_id` result. -/
structure Category where
  display : Bool
  rawinput : Bool
  deriving DecidableEq, Repr

/-- The external collaborators of the module (spec sections 1 and 6), passed
explicitly: the persistent store (`dao`, `load_entity_by_gid`), dynamic class
resolution (`FilterChain._get_class_instance`), `json.loads`, file reading
for uploads, the surface equation service reached through `_convert_to_array`
(whose internal failures are already caught and downgraded there, hence a
plain `OVal`), `_load_entity` (section 4.6: store access, dynamic imports,
reflective projection and metadata propagation), `utils.date2string` and
`FilterChain.get_filters_for_type`. -/
structure Ext where
  loadEntity : NodeCore → PVal → Kwargs → Except String OVal
  jsonLoads : String → Except String OVal
  computeEquation : String → OVal
  readFile : String → Option String
  getClassInstance : String → Option String
  getValuesOfDatatype : Nat → String → Filter → Nat → (List DRow × Nat)
  displayNameOf : String → String → Option String
  getCategoryById : Nat → Category
  getFiltersForType : String → String
  dateToString : String → String

/-! ## Submission-side helpers of `InputTreeManager` -/

def KEY_EQUATION : String := "equation"
def KEY_FOCAL_POINTS : String := "focal_points"
def KEY_SURFACE_GID : String := "surface_gid"

/-- Modelled from the spec: `xml_reader.QUANTIFIER_MANUAL` /
`xml_reader.QUANTIFIER_UPLOAD` (opaque tokens of the external schema
reader). -/
def QUANTIFIER_MANUAL : String := "manual"

def QUANTIFIER_UPLOAD : String := "uploaded"

/-- Python `s.startswith(p)`. -/
def pyStartswith (s p : String) : Bool :=
  p.data.isPrefixOf s.data

/-- `InputTreeManager._compute_submit_option_select(submitted_option)`:
a string has its square brackets removed and is split on commas; a list is
returned unchanged. -/
def computeSubmitOptionSelect (v : PVal) : List String :=
  match v with
  | .str s => pySplitOn (String.mk (s.data.filter (fun c => ¬ (c = '[' ∨ c = ']')))) ","
  | .list l => l

/-- `InputTreeManager._is_parent_not_submitted(row, kwargs)`.  The unguarded
`kwargs[parent_name]` read can raise (`.error`). -/
def isParentNotSubmitted (core : NodeCore) (kwargs : Kwargs) : Except String Bool :=
  let att := core.name
  if pyContains att KEYWORD_PARAMS then
    let parent := pySliceTo att (pyFind att KEYWORD_PARAMS)
    let optRaw := pySliceFrom att (pyFind att KEYWORD_OPTION + 7)
    let opt := pySliceTo optRaw (pyFind optRaw KEYWORD_SEPARATOR)
    match kwLookup kwargs parent with
    | Option.none => .error "KeyError: kwargs[parent_name]"
    | Option.some pv =>
      let so := computeSubmitOptionSelect pv
      if so = [] then .ok true
      else if so.contains opt then .ok false
      else .ok true
  else .ok false

/-- Warning text of the known multi-select/datatype-attribute corner case. -/
def MULTIPLE_SELECT_WARNING : String :=
  "DataType attribute in SELECT_MULTIPLE is not supposed to work!!!"

/-- The `for submitted_option in submitted_options` loop of
`_find_field_submitted_name`: returns the resolved key (if any), the
submission dictionary after the optional in-place cleanup, and the logged
warnings. -/
def findFieldLoop (flatName pfxStr sfx : String) (sosLen : Nat) (performClean : Bool) :
    List String → Kwargs → Bool → List String → (Option String × Kwargs × List String)
  | [], kw, _, ws => (Option.none, kw, ws)
  | so :: rest, kw, dtLike, ws =>
    let hit := pyStartswith sfx (KEYWORD_OPTION ++ so)
    let dtLike' := if hit then dtLike else true
    let proposed :=
      if hit then flatName
      else pfxStr ++ KEYWORD_OPTION ++ so ++ KEYWORD_SEPARATOR ++ sfx
    let (kw', ws') :=
      if performClean then
        let toRemove := (kwKeys kw).filter (fun k =>
          pyStartswith k (pfxStr ++ KEYWORD_OPTION) && pyEndswith k sfx && k ≠ proposed)
        let kw2 := toRemove.foldl kwDelete kw
        let ws2 := ws ++ (if dtLike' && sosLen > 1 then [MULTIPLE_SELECT_WARNING] else [])
        (kw2, ws2)
      else (kw, ws)
    if kwMem kw' proposed then (Option.some proposed, kw', ws')
    else findFieldLoop flatName pfxStr sfx sosLen performClean rest kw' dtLike' ws'

/-- `InputTreeManager._find_field_submitted_name(submitted_kwargs, flat_name,
perform_clean)`.  The unguarded `submitted_kwargs[parent_name]` read can
raise. -/
def findFieldSubmittedName (kwargs : Kwargs) (flatName : String) (performClean : Bool) :
    Except String (Option String × Kwargs × List String) :=
  if ¬ pyContains flatName KEYWORD_PARAMS then
    if kwMem kwargs flatName then .ok (Option.some flatName, kwargs, [])
    else .ok (Option.none, kwargs, [])
  else
    let idx := pyFind flatName KEYWORD_PARAMS
    let pfxStr := pySliceTo flatName (idx + 12)
    let sfx := pySliceFrom flatName (idx + 12)
    let parent := pySliceTo flatName idx
    match kwLookup kwargs parent with
    | Option.none => .error "KeyError: submitted_kwargs[parent_name]"
    | Option.some pv =>
      let sos := computeSubmitOptionSelect pv
      .ok (findFieldLoop flatName pfxStr sfx sos.length performClean sos kwargs false [])

/-- Insert/update in an ordered dictionary of `DVal`s. -/
def dvInsert (d : List (String × DVal)) (k : String) (v : DVal) : List (String × DVal) :=
  match d with
  | [] => [(k, v)]
  | (k', v') :: t => if k' = k then (k', v) :: t else (k', v') :: dvInsert t k v

/-- Coercion of one dictionary sub-entry by the declared element type
(the `eval(row[KEY_DTYPE] + "('" + kwargs[key] + "')")` of the source; an
unknown element type or a failing coercion raises). -/
def dictElemCoerce (elemTy : Option String) (v : PVal) : Except String DVal :=
  match elemTy with
  | Option.none => .ok (DVal.s v.pyStr)
  | Option.some et =>
    if et = "array" then
      match v with
      | .str s => DVal.arr <$> string2array s " " (Option.some "float")
      | .list _ => .error "TypeError: string2array on a list"
    else
      match v with
      | .list _ => .error "TypeError: cannot concatenate str and list"
      | .str s =>
        if et = "float" then
          match pyParseFloat s with
          | Option.some q => .ok (DVal.r q)
          | Option.none => .error "ValueError: float()"
        else if et = "int" then
          match pyParseInt s with
          | Option.some n => .ok (DVal.i n)
          | Option.none => .error "ValueError: int()"
        else if et = "str" then .ok (DVal.s s)
        else .error "eval: unknown element type"

/-- The key-gathering loop of `_get_dictionary`: every submission key that
contains (but is not equal to) the field name is consumed; the dictionary key
is the part after the last `"parameters_"`. -/
def getDictLoop (name : String) (elemTy : Option String) :
    List (String × PVal) → List (String × DVal) → List String →
    Except String (List (String × DVal) × List String)
  | [], accD, accT => .ok (accD, accT)
  | (k, v) :: rest, accD, accT =>
    if pyContains k name && k ≠ name then
      match dictElemCoerce elemTy v with
      | .error e => .error e
      | .ok dv =>
        let dictKey := (pySplitOn k (pySliceFrom KEYWORD_PARAMS 1)).getLastD ""
        getDictLoop name elemTy rest (dvInsert accD dictKey dv) (accT ++ [k])
    else getDictLoop name elemTy rest accD accT

/-- `InputTreeManager._get_dictionary(row, **kwargs)`: the parsed dictionary
and the list of consumed submission keys. -/
def getDictionary (core : NodeCore) (kwargs : Kwargs) :
    Except String (List (String × DVal) × List String) :=
  match isParentNotSubmitted core kwargs with
  | .error e => .error e
  | .ok true => .ok ([], [])
  | .ok false => getDictLoop core.name core.elementType kwargs [] []

/-- `InputTreeManager._validate_range_for_value_input(value, row)`: the
logged warnings (never an exception). -/
def validateRangeValue (v : Rat) (core : NodeCore) : List String :=
  match core.minValue, core.maxValue with
  | Option.some mn, Option.some mx =>
    if v < mn ∨ v > mx then
      ["Field " ++ core.label.getD "" ++ " [" ++ core.name ++ "] should be between " ++
        toString mn ++ " and " ++ toString mx ++ " but provided value was " ++ toString v ++ "."]
    else []
  | _, _ => []

/-- `InputTreeManager._validate_range_for_array_input(array, row)`:
`numpy.min`/`numpy.max` over the converted value.  An empty array makes the
numpy reduction raise (wrapped into `InvalidParameterException` by the
caller); a `None` value compares below every bound under Python 2 (`None <
number`), producing a warning; any other non-array value is modelled as a
failing reduction. -/
def validateRangeArr (v : OVal) (core : NodeCore) : Except String (List String) :=
  match core.minValue, core.maxValue with
  | Option.some mn, Option.some mx =>
    match v with
    | .arr [] => .error "ValueError: zero-size array reduction"
    | .arr (x :: xs) =>
      let mnv := xs.foldl min x
      let mxv := xs.foldl max x
      if mnv < mn ∨ mxv > mx then
        .ok ["Field " ++ core.label.getD "" ++ " [" ++ core.name ++
          "] should have values between " ++ toString mn ++ " and " ++ toString mx ++
          " but provided array contains min-max:(" ++ toString mnv ++ ", " ++
          toString mxv ++ ")."]
      else .ok []
    | .none => .ok ["Field " ++ core.label.getD "" ++ " [" ++ core.name ++
        "] should have values between " ++ toString mn ++ " and " ++ toString mx ++
        " but provided array contains min-max:(None, None)."]
    | _ => .error "TypeError: numpy reduction"
  | _, _ => .ok []

/-- `InputTreeManager._convert_to_array(input_data, row)`: the
equation-derived branch (external service, internally caught failures), the
manual comma-separated branch, the upload branch, or `None`. -/
def convertToArray (ext : Ext) (input : PVal) (core : NodeCore) : Except String OVal :=
  let sInput := input.pyStr
  if pyContains sInput KEY_EQUATION && pyContains sInput KEY_FOCAL_POINTS &&
      pyContains sInput KEY_SURFACE_GID then
    .ok (ext.computeEquation sInput)
  else
    match core.quantifier with
    | Option.some q =>
      if q = QUANTIFIER_MANUAL then OVal.arr <$> string2array sInput "," core.elementType
      else if q = QUANTIFIER_UPLOAD then
        match input with
        | .str path =>
          match ext.readFile path with
          | Option.some content => OVal.arr <$> string2array content " " core.elementType
          | Option.none => .error "IOError: open()"
        | .list _ => .error "TypeError: open() on a list"
      else .ok OVal.none
    | Option.none => .ok OVal.none

deriving instance DecidableEq for Except

/-! ## `InputTreeManager.convert_ui_inputs` -/

/-- The mutable state of the `convert_ui_inputs` loop: the result dictionary
`kwa`, the (mutated in place) submission `kwargs`, the consumed DICT sub-keys
`to_skip_dict_subargs`, `simple_select_list`, and the logged warnings. -/
structure ConvSt where
  kwa : List (String × OVal) := []
  kwargs : Kwargs
  toSkip : List String := []
  simpleSelect : List String := []
  warnings : List String := []
  deriving DecidableEq, Repr

def kwaLookup (kwa : List (String × OVal)) (k : String) : Option OVal :=
  match kwa with
  | [] => Option.none
  | (k', v) :: t => if k' = k then Option.some v else kwaLookup t k

def kwaInsert (kwa : List (String × OVal)) (k : String) (v : OVal) : List (String × OVal) :=
  match kwa with
  | [] => [(k, v)]
  | (k', v') :: t => if k' = k then (k', v) :: t else (k', v') :: kwaInsert t k v

def kwaDelete (kwa : List (String × OVal)) (k : String) : List (String × OVal) :=
  kwa.filter (fun p => p.1 ≠ k)

/-- The type-dispatch part of the loop body (everything inside the `try`
after the DICT/skip/presence handling), acting on the submitted value `v` of
`row_attr`. -/
def processRowDispatch (ext : Ext) (rowType : String) (core : NodeCore) (v : PVal)
    (st : ConvSt) : Except String ConvSt :=
  let rowAttr := core.name
  if rowType = TYPE_ARRAY then
    match convertToArray ext v core with
    | .error e => .error e
    | .ok av =>
      let st := { st with kwa := kwaInsert st.kwa rowAttr av }
      if core.minValue.isSome && core.maxValue.isSome then
        match validateRangeArr av core with
        | .error e => .error e
        | .ok ws => .ok { st with warnings := st.warnings ++ ws }
      else .ok st
  else if rowType = TYPE_LIST then
    match v with
    | .list _ => .ok st  -- source quirk: an already-native list is not copied into kwa
    | .str s =>
      match ext.jsonLoads s with
      | .error e => .error e
      | .ok jv => .ok { st with kwa := kwaInsert st.kwa rowAttr jv }
  else if rowType = TYPE_BOOL then
    .ok { st with kwa := kwaInsert st.kwa rowAttr (OVal.b v.pyBool) }
  else if rowType = TYPE_INT then
    match v with
    | .str s =>
      if s = "" ∨ s = "None" then
        .ok { st with kwa := kwaInsert st.kwa rowAttr OVal.none }
      else
        match pyParseInt s with
        | Option.none => .error "ValueError: int()"
        | Option.some n =>
          let st := { st with kwa := kwaInsert st.kwa rowAttr (OVal.i n) }
          if core.minValue.isSome && core.maxValue.isSome then
            .ok { st with warnings := st.warnings ++ validateRangeValue (n : Rat) core }
          else .ok st
    | .list _ => .error "TypeError: int() on a list"
  else if rowType = TYPE_FLOAT then
    match v with
    | .str s =>
      if s = "" ∨ s = "None" then
        .ok { st with kwa := kwaInsert st.kwa rowAttr OVal.none }
      else
        match pyParseFloat s with
        | Option.none => .error "ValueError: float()"
        | Option.some q =>
          let st := { st with kwa := kwaInsert st.kwa rowAttr (OVal.r q) }
          if core.minValue.isSome && core.maxValue.isSome then
            .ok { st with warnings := st.warnings ++ validateRangeValue q core }
          else .ok st
    | .list _ => .error "TypeError: float() on a list"
  else if rowType = TYPE_STR then
    .ok { st with kwa := kwaInsert st.kwa rowAttr (OVal.pv v) }
  else if rowType = TYPE_SELECT ∨ rowType = TYPE_MULTIPLE then
    let val : PVal :=
      match v with
      | .str s => if rowType = TYPE_MULTIPLE then .list [s] else .str s
      | .list l => .list l
    let st := { st with kwa := kwaInsert st.kwa rowAttr (OVal.pv val) }
    if rowType = TYPE_SELECT then
      .ok { st with simpleSelect := st.simpleSelect ++ [rowAttr] }
    else .ok st
  else if rowType = TYPE_UPLOAD then
    .ok { st with kwa := kwaInsert st.kwa rowAttr (OVal.pv v) }
  else
    -- DataType parameter (default branch): dereference through the store
    let st := { st with simpleSelect := st.simpleSelect ++ [rowAttr] }
    match ext.loadEntity core v st.kwargs with
    | .error e => .error e
    | .ok ent =>
      let st := { st with kwa := kwaInsert st.kwa rowAttr ent }
      if core.field_.isSome then
        .ok { st with kwa := kwaInsert st.kwa (rowAttr ++ "_gid") (OVal.pv v) }
      else .ok st

/-- The body of the `try` block of the loop (DICT handling, skip list,
presence / reverse name resolution / pruning, then type dispatch). -/
def processRowBody (ext : Ext) (rowType : String) (core : NodeCore) (st : ConvSt) :
    Except String ConvSt :=
  let rowAttr := core.name
  if rowType = TYPE_DICT then
    match getDictionary core st.kwargs with
    | .error e => .error e
    | .ok (d, taken) =>
      let kwa1 := kwaInsert st.kwa rowAttr (OVal.dict d)
      let kwa2 := taken.foldl kwaDelete kwa1
      .ok { st with kwa := kwa2, toSkip := st.toSkip ++ taken }
  else if st.toSkip.contains rowAttr then .ok st
  else
    let afterResolve : Except String (Sum ConvSt (PVal × ConvSt)) :=
      if ¬ kwMem st.kwargs rowAttr then
        match findFieldSubmittedName st.kwargs rowAttr true with
        | .error e => .error e
        | .ok (Option.none, kw', ws) =>
          -- do not populate attributes not submitted (the in-place cleanup
          -- and warnings persist)
          .ok (Sum.inl { st with kwargs := kw', warnings := st.warnings ++ ws })
        | .ok (Option.some kwaName, kw', ws) =>
          match kwLookup kw' kwaName with
          | Option.none => .error "KeyError: kwargs[kwa_name]"
          | Option.some v =>
            let kw2 := kwInsert kw' rowAttr v
            .ok (Sum.inr (v, { st with kwargs := kw2, warnings := st.warnings ++ ws }))
      else
        match isParentNotSubmitted core st.kwargs with
        | .error e => .error e
        | .ok true =>
          -- sub-attribute of an unselected option: drop it from the submission
          .ok (Sum.inl { st with kwargs := kwDelete st.kwargs rowAttr })
        | .ok false =>
          match kwLookup st.kwargs rowAttr with
          | Option.none => .error "KeyError: kwargs[row_attr]"
          | Option.some v => .ok (Sum.inr (v, st))
    match afterResolve with
    | .error e => .error e
    | .ok (Sum.inl stSkip) => .ok stSkip
    | .ok (Sum.inr (v, st')) => processRowDispatch ext rowType core v st'

/-- One iteration of the `for row in flat_input_interface` loop:
`row[KEY_TYPE]` access (an uncaught `KeyError` when absent), the
required-but-empty check (raised outside the `try`), then the `try` body
with its exception wrapping (`TVBException`s re-raised, anything else
wrapped into `InvalidParameterException`). -/
def processRow (ext : Ext) (validationRequired : Bool) (core : NodeCore) (st : ConvSt) :
    Except String ConvSt :=
  match core.type_ with
  | Option.none => .error "KeyError: row[KEY_TYPE]"
  | Option.some rowType =>
    if validationRequired && core.required = Option.some true &&
        kwLookup st.kwargs core.name = Option.some (PVal.str "") then
      .error ("InvalidParameterException: Parameter " ++ core.label.getD "" ++ " [" ++
        core.name ++ "] is required but no value was submitted.")
    else
      match processRowBody ext rowType core st with
      | .ok st' => .ok st'
      | .error e =>
        if pyStartswith e "InvalidParameterException" then .error e
        else .error ("InvalidParameterException: Invalid or missing value in field " ++
          core.label.getD "" ++ " [" ++ core.name ++ "]")

/-- The `for row in flat_input_interface` loop. -/
def convertLoop (ext : Ext) (validationRequired : Bool) (rows : NodeList) (st : ConvSt) :
    Except String ConvSt :=
  match rows with
  | .nil => .ok st
  | .cons r rest =>
    match processRow ext validationRequired r.core st with
    | .error e => .error e
    | .ok st' => convertLoop ext validationRequired rest st'

/-- `InputTreeManager.convert_ui_inputs(flat_input_interface, kwargs,
metadata_out, validation_required)`.  The final state holds the `kwa`
dictionary in insertion order; the source then returns
`collapse_params(kwa, simple_select_list)`, an external collaborator
(`tvb.basic.traits.parameters_factory`, spec section 4.4), so the
pre-collapse mapping is exposed here.  Metadata propagation happens inside
the abstracted `Ext.loadEntity`. -/
def convertUiInputs (ext : Ext) (flatInputInterface : NodeList) (kwargs : Kwargs)
    (validationRequired : Bool := true) : Except String ConvSt :=
  convertLoop ext validationRequired flatInputInterface { kwargs := kwargs }

/-! ## `InputTreeManager.fill_input_tree_with_options` -/

/-- The `KEY_VALUE` of the last node of a list (`values[-1][KEY_VALUE]`). -/
def NodeList.lastValue : NodeList → String
  | .nil => ""
  | .cons n .nil => n.core.value
  | .cons _ (.cons m t) => NodeList.lastValue (.cons m t)

/-- `InputTreeManager._populate_values(data_list, type_, category_key,
complex_dt_attributes)`: one option per store row with the composed display
label, an `All` pseudo-option prepended for a neither-display-nor-rawinput
category with more than one row. -/
def populateValues (ext : Ext) (dataList : List DRow) (ty : String)
    (categoryKey : Option Nat) (complexAttrs : NLOpt) : NodeList :=
  let mkOpt : DRow → Node := fun rw =>
    let dn0 := match ext.displayNameOf ty rw.gid with
      | Option.some n => n
      | Option.none => ""
    let dn1 := dn0 ++ " - " ++ rw.description.getD "None "
    let dn2 := match rw.fromLabel with
      | Option.some f => dn1 ++ " - From: " ++ f
      | Option.none => dn1 ++ ext.dateToString rw.date
    let dn3 := match rw.extraLabel with
      | Option.some e => dn2 ++ " - " ++ e
      | Option.none => dn2
    let dn4 := dn3 ++ " - ID:" ++ toString rw.id
    Node.mk { name := dn4, value := rw.gid } .none complexAttrs
  let values := NodeList.ofList (dataList.map mkOpt)
  let allFieldValues := String.join (dataList.map (fun rw => rw.gid ++ ","))
  match categoryKey with
  | Option.none => values
  | Option.some ck =>
    let cat := ext.getCategoryById ck
    if !cat.display && !cat.rawinput && dataList.length > 1 then
      .cons (Node.mk { name := "All", value := pySliceTo allFieldValues (-1) } .none .none)
        values
    else values

/-- `InputTreeManager._get_available_datatypes(project_id, data_name,
filters)`: resolve the class (an unresolvable class yields no rows), then
query the store under the display cap. -/
def getAvailableDatatypes (ext : Ext) (projectId : Nat) (dataName : String)
    (filters : Filter) : List DRow × Nat :=
  match ext.getClassInstance dataName with
  | Option.none => ([], 0)
  | Option.some cls => ext.getValuesOfDatatype projectId cls filters MAXIMUM_DATA_TYPES_DISPLAYED

/-- Whether the original default counts as unset
(`transformed_param.get(KEY_DEFAULT) in [None, 'None']`). -/
def defaultUnset (d : Option PVal) : Bool :=
  d = Option.none ∨ d = Option.some (PVal.str "None")

/-- The persisted-entity branch of the `fill_input_tree_with_options` loop
body, after the recursive materialization of the node's own attributes
(`complexAttrs`): query the store, build the options, default a required
field without a default to the last option, rewrite the type to SELECT and
stash the class path under `datatype`.  `none` models the `KeyError` of the
dynamic-parameter branch reading an absent `param[KEY_DEFAULT]`. -/
def fillITDatatypeCore (ext : Ext) (projectId : Nat) (categoryKey : Option Nat)
    (core : NodeCore) (ty : String) (complexAttrs : NLOpt) : Option Node :=
  let fc0 : Filter := match core.conditions with
    | Option.some f => f
    | Option.none => { conds := [] }
  let fc := fc0.addCondition (FILTER_DATATYPE ++ ".visible") "==" "True"
  let dl := getAvailableDatatypes ext projectId ty fc
  let warning' : Option String :=
    if dl.2 > MAXIMUM_DATA_TYPES_DISPLAYED then Option.some WARNING_OVERFLOW else core.warning
  let values := populateValues ext dl.1 ty categoryKey complexAttrs
  let default' : Option PVal :=
    if core.required = Option.some true && values.length > 0 && defaultUnset core.default then
      Option.some (.str values.lastValue)
    else core.default
  match (if core.dynamic then
           match core.default with
           | Option.none => Option.none  -- KeyError: param[KEY_DEFAULT]
           | Option.some d =>
             Option.some (NLOpt.some
               (.cons (Node.mk { name := d.pyStr, value := d.pyStr } .none .none) .nil))
         else Option.some (NLOpt.some values)) with
  | Option.none => Option.none
  | Option.some options' =>
    let core1 := { core with warning := warning', default := default' }
    let core2 := { core1 with filterable := Option.some (ext.getFiltersForType ty) }
    let core3 := { core2 with type_ := Option.some TYPE_SELECT, datatype := Option.some ty }
    Option.some (.mk core3 options' (NLOpt.some .nil))

/-- The static branch of the loop body, after the recursive calls on the
original options (`options'`) and attributes (`attrs'`): a required field
with (original) options and no default gets the last original option value. -/
def fillITStaticCore (core : NodeCore) (optsOrig : NLOpt) (options' attrs' : NLOpt) : Node :=
  let default' : Option PVal :=
    match optsOrig with
    | .some ol =>
      if core.required = Option.some true && ol.length > 0 && defaultUnset core.default then
        Option.some (PVal.str ol.lastValue)
      else core.default
    | .none => core.default
  .mk { core with default := default' } options' attrs'

/-- `InputTreeManager.fill_input_tree_with_options(attributes_list,
project_id, category_key)`: materialize persisted-entity options; skip
`ui_hidden` nodes; recurse into options/attributes of static nodes. -/
def fillInputTreeWithOptions (ext : Ext) (projectId : Nat) (categoryKey : Option Nat)
    (attributesList : NodeList) : Option NodeList :=
  match attributesList with
  | .nil => Option.some .nil
  | .cons (.mk core opts attrs) rest =>
    if core.uiHidden then fillInputTreeWithOptions ext projectId categoryKey rest
    else
      let isDatatype : Bool := match core.type_ with
        | Option.some ty => ¬ STATIC_ACCEPTED_TYPES.contains ty
        | Option.none => false
      match (if isDatatype then
               -- `if param.get(KEY_ATTRIBUTES):` — only a non-empty list is truthy
               match (match attrs with
                      | .some (.cons a at') =>
                        match fillInputTreeWithOptions ext projectId categoryKey (.cons a at') with
                        | Option.none => Option.none
                        | Option.some l => Option.some (NLOpt.some l)
                      | _ => Option.some NLOpt.none) with
               | Option.none => Option.none
               | Option.some complexAttrs =>
                 fillITDatatypeCore ext projectId categoryKey core (core.type_.getD "")
                   complexAttrs
             else
               match (match opts with
                      | .some ol =>
                        match fillInputTreeWithOptions ext projectId categoryKey ol with
                        | Option.none => Option.none
                        | Option.some ol' => Option.some (NLOpt.some ol')
                      | .none => Option.some NLOpt.none) with
               | Option.none => Option.none
               | Option.some options' =>
                 match (match attrs with
                        | .some al =>
                          match fillInputTreeWithOptions ext projectId categoryKey al with
                          | Option.none => Option.none
                          | Option.some al' => Option.some (NLOpt.some al')
                        | .none => Option.some NLOpt.none) with
                 | Option.none => Option.none
                 | Option.some attrs' =>
                   Option.some (fillITStaticCore core opts options' attrs')) with
      | Option.none => Option.none
      | Option.some node =>
        match fillInputTreeWithOptions ext projectId categoryKey rest with
        | Option.none => Option.none
        | Option.some rest' => Option.some (.cons node rest')

/-! ## Flat-name grammar: tokens, joining, and injectivity

The flattened name of a node is the underscore-join of the *tokens* along its
access path: `parent, "parameters"` for a datatype nesting step,
`parent, "parameters", "option", value` for an option-gated step, then the
node's own name (spec section 6).  Distinctness of flattened names reduces to
injectivity of this encoding. -/

/-- The token has no underscore. -/
def noUnd (s : String) : Bool :=
  s.data.all (fun c => c ≠ '_')

/-- A usable node-name token: no underscore, and not the `option` marker
word. -/
def tokName (s : String) : Bool :=
  noUnd s && s != "option"

/-- Pairwise distinctness of a string list. -/
def distinctB : List String → Bool
  | [] => true
  | x :: t => !t.contains x && distinctB t

/-- Join tokens with the `_` separator. -/
def joinU : List String → String
  | [] => ""
  | [t] => t
  | t :: t' :: ts => t ++ "_" ++ joinU (t' :: ts)

theorem joinU_append (a b : List String) (ha : a ≠ []) (hb : b ≠ []) :
    joinU (a ++ b) = joinU a ++ "_" ++ joinU b := by
  induction a with
  | nil => exact absurd rfl ha
  | cons x xs ih =>
    cases xs with
    | nil =>
      cases b with
      | nil => exact absurd rfl hb
      | cons y ys => rfl
    | cons x' xs' =>
      have ih' := ih (List.cons_ne_nil x' xs')
      calc joinU ((x :: x' :: xs') ++ b)
          = x ++ "_" ++ joinU ((x' :: xs') ++ b) := rfl
        _ = x ++ "_" ++ (joinU (x' :: xs') ++ "_" ++ joinU b) := by rw [ih']
        _ = (x ++ "_" ++ joinU (x' :: xs')) ++ "_" ++ joinU b := by
              apply String.ext
              simp [String.data_append]
        _ = joinU (x :: x' :: xs') ++ "_" ++ joinU b := rfl

theorem noUnd_iff (s : String) : noUnd s = true ↔ '_' ∉ s.data := by
  simp only [noUnd, List.all_eq_true]
  constructor
  · intro h hmem
    exact absurd rfl (of_decide_eq_true (h '_' hmem))
  · intro h c hc
    exact decide_eq_true (fun hceq => h (hceq ▸ hc))

/-- Splitting a char list at the first underscore is unambiguous. -/
theorem split_first_underscore (a1 : List Char) :
    ∀ (a2 b1 b2 : List Char), '_' ∉ a1 → '_' ∉ a2 →
      a1 ++ '_' :: b1 = a2 ++ '_' :: b2 → a1 = a2 ∧ b1 = b2 := by
  induction a1 with
  | nil =>
    intro a2 b1 b2 _ h2 heq
    cases a2 with
    | nil => simpa using heq
    | cons c t =>
      simp only [List.nil_append, List.cons_append, List.cons.injEq] at heq
      exact absurd (heq.1 ▸ List.mem_cons_self c t) h2
  | cons c t ih =>
    intro a2 b1 b2 h1 h2 heq
    cases a2 with
    | nil =>
      simp only [List.nil_append, List.cons_append, List.cons.injEq] at heq
      exact absurd (heq.1 ▸ List.mem_cons_self c t) h1
    | cons c' t' =>
      simp only [List.cons_append, List.cons.injEq] at heq
      have h1' : '_' ∉ t := fun hm => h1 (List.mem_cons_of_mem c hm)
      have h2' : '_' ∉ t' := fun hm => h2 (List.mem_cons_of_mem c' hm)
      obtain ⟨ht, hb⟩ := ih t' b1 b2 h1' h2' heq.2
      exact ⟨by rw [heq.1, ht], hb⟩

theorem underscore_mem_joinU_cons (x : String) (ts : List String) (hts : ts ≠ []) :
    '_' ∈ (joinU (x :: ts)).data := by
  cases ts with
  | nil => exact absurd rfl hts
  | cons y ys =>
    show '_' ∈ (x ++ "_" ++ joinU (y :: ys)).data
    simp [String.data_append, show ("_" : String).data = ['_'] from rfl]

/-- `joinU` is injective on non-empty lists of underscore-free tokens. -/
theorem joinU_inj : ∀ (ts1 ts2 : List String), ts1 ≠ [] → ts2 ≠ [] →
    (∀ t ∈ ts1, noUnd t = true) → (∀ t ∈ ts2, noUnd t = true) →
    joinU ts1 = joinU ts2 → ts1 = ts2 := by
  intro ts1
  induction ts1 with
  | nil => intro _ h; exact absurd rfl h
  | cons x xs ih =>
    intro ts2 _ h2 hv1 hv2 heq
    cases ts2 with
    | nil => exact absurd rfl h2
    | cons y ys =>
      cases xs with
      | nil =>
        cases ys with
        | nil => simpa [joinU] using heq
        | cons y' ys' =>
          exfalso
          have hmem : '_' ∈ (joinU (y :: y' :: ys')).data :=
            underscore_mem_joinU_cons y (y' :: ys') (List.cons_ne_nil y' ys')
          rw [← heq] at hmem
          exact (noUnd_iff x).mp (hv1 x (List.mem_cons_self _ _)) hmem
      | cons x' xs' =>
        cases ys with
        | nil =>
          exfalso
          have hmem : '_' ∈ (joinU (x :: x' :: xs')).data :=
            underscore_mem_joinU_cons x (x' :: xs') (List.cons_ne_nil x' xs')
          rw [heq] at hmem
          exact (noUnd_iff y).mp (hv2 y (List.mem_cons_self _ _)) hmem
        | cons y' ys' =>
          have hdata := congrArg String.data heq
          have hsplit : x.data ++ '_' :: (joinU (x' :: xs')).data =
              y.data ++ '_' :: (joinU (y' :: ys')).data := by
            have hx : (joinU (x :: x' :: xs')).data =
                x.data ++ '_' :: (joinU (x' :: xs')).data := by
              show ((x ++ "_" ++ joinU (x' :: xs')).data) = _
              simp [String.data_append, show ("_" : String).data = ['_'] from rfl]
            have hy : (joinU (y :: y' :: ys')).data =
                y.data ++ '_' :: (joinU (y' :: ys')).data := by
              show ((y ++ "_" ++ joinU (y' :: ys')).data) = _
              simp [String.data_append, show ("_" : String).data = ['_'] from rfl]
            rw [← hx, ← hy]
            exact hdata
          have hxnu : '_' ∉ x.data :=
            (noUnd_iff x).mp (hv1 x (List.mem_cons_self _ _))
          have hynu : '_' ∉ y.data :=
            (noUnd_iff y).mp (hv2 y (List.mem_cons_self _ _))
          obtain ⟨hxy, hrest⟩ := split_first_underscore x.data y.data _ _ hxnu hynu hsplit
          have hxey : x = y := String.ext hxy
          have hje : joinU (x' :: xs') = joinU (y' :: ys') := String.ext hrest
          have htail := ih (y' :: ys') (List.cons_ne_nil x' xs') (List.cons_ne_nil y' ys')
            (fun t ht => hv1 t (List.mem_cons_of_mem x ht))
            (fun t ht => hv2 t (List.mem_cons_of_mem y ht)) hje
          rw [hxey, htail]

/-- One access-path step: the parent's name and, for an option-gated step,
the option's value. -/
abbrev Step := String × Option String

/-- The tokens contributed by one step. -/
def stepToks : Step → List String
  | (p, Option.none) => [p, "parameters"]
  | (p, Option.some v) => [p, "parameters", "option", v]

/-- The tokens of a full access path ending in a node name. -/
def pathToks (steps : List Step) (n : String) : List String :=
  (steps.map stepToks).flatten ++ [n]

theorem pathToks_nil (n : String) : pathToks [] n = [n] := rfl

theorem pathToks_cons_none (p : String) (rest : List Step) (n : String) :
    pathToks ((p, Option.none) :: rest) n = p :: "parameters" :: pathToks rest n := by
  simp [pathToks, stepToks]

theorem pathToks_cons_some (p v : String) (rest : List Step) (n : String) :
    pathToks ((p, Option.some v) :: rest) n =
      p :: "parameters" :: "option" :: v :: pathToks rest n := by
  simp [pathToks, stepToks]

/-- Validity of an emitted entry: all parent names and the final name are
usable name tokens, option values are underscore-free. -/
def entryOkB : List Step × String → Bool
  | (steps, n) =>
    steps.all (fun st => tokName st.1 &&
      (match st.2 with
       | Option.some v => noUnd v
       | Option.none => true)) && tokName n

theorem entryOkB_cons (st : Step) (rest : List Step) (n : String)
    (h : entryOkB (st :: rest, n) = true) : entryOkB (rest, n) = true := by
  simp only [entryOkB, List.all_cons, Bool.and_eq_true] at h ⊢
  exact ⟨h.1.2, h.2⟩

theorem pathToks_head (steps : List Step) (n : String) :
    (pathToks steps n).head? =
      Option.some (match steps with
        | [] => n
        | (p, _) :: _ => p) := by
  cases steps with
  | nil => simp [pathToks]
  | cons st rest =>
    obtain ⟨p, ov⟩ := st
    cases ov <;> simp [pathToks, stepToks]

/-- A valid entry's token list never starts with the `option` marker. -/
theorem entryOk_head_ne_option (steps : List Step) (n : String)
    (h : entryOkB (steps, n) = true) : (pathToks steps n).head? ≠ Option.some "option" := by
  rw [pathToks_head]
  simp only [entryOkB, Bool.and_eq_true, tokName] at h
  cases steps with
  | nil =>
    intro hc
    have hc' : n = "option" := by rw [Option.some.injEq] at hc; exact hc
    have := h.2.2
    rw [hc'] at this
    simp at this
  | cons st rest =>
    obtain ⟨p, ov⟩ := st
    intro hc
    have hc' : p = "option" := by rw [Option.some.injEq] at hc; exact hc
    simp only [List.all_cons, Bool.and_eq_true, tokName] at h
    have := h.1.1.1.2
    rw [hc'] at this
    simp at this

/-- The path-token encoding is injective on valid entries. -/
theorem pathToks_inj : ∀ (s1 : List Step) (n1 : String) (s2 : List Step) (n2 : String),
    entryOkB (s1, n1) = true → entryOkB (s2, n2) = true →
    pathToks s1 n1 = pathToks s2 n2 → s1 = s2 ∧ n1 = n2 := by
  intro s1
  induction s1 with
  | nil =>
    intro n1 s2 n2 _ hok2 heq
    cases s2 with
    | nil =>
      rw [pathToks_nil, pathToks_nil] at heq
      exact ⟨rfl, by simpa using heq⟩
    | cons st2 rest2 =>
      exfalso
      obtain ⟨p2, ov2⟩ := st2
      rw [pathToks_nil] at heq
      cases ov2 with
      | none => rw [pathToks_cons_none] at heq; simp at heq
      | some v2 => rw [pathToks_cons_some] at heq; simp at heq
  | cons st1 rest1 ih =>
    intro n1 s2 n2 hok1 hok2 heq
    obtain ⟨p1, ov1⟩ := st1
    cases s2 with
    | nil =>
      exfalso
      rw [pathToks_nil] at heq
      cases ov1 with
      | none => rw [pathToks_cons_none] at heq; simp at heq
      | some v1 => rw [pathToks_cons_some] at heq; simp at heq
    | cons st2 rest2 =>
      obtain ⟨p2, ov2⟩ := st2
      have hok1' := entryOkB_cons _ _ _ hok1
      have hok2' := entryOkB_cons _ _ _ hok2
      cases ov1 with
      | none =>
        cases ov2 with
        | none =>
          rw [pathToks_cons_none, pathToks_cons_none] at heq
          simp only [List.cons.injEq] at heq
          obtain ⟨hs, hn⟩ := ih n1 rest2 n2 hok1' hok2' heq.2.2
          exact ⟨by rw [heq.1, hs], hn⟩
        | some v2 =>
          exfalso
          rw [pathToks_cons_none, pathToks_cons_some] at heq
          simp only [List.cons.injEq] at heq
          have hhead : (pathToks rest1 n1).head? = Option.some "option" := by
            rw [heq.2.2]
            rfl
          exact entryOk_head_ne_option rest1 n1 hok1' hhead
      | some v1 =>
        cases ov2 with
        | none =>
          exfalso
          rw [pathToks_cons_some, pathToks_cons_none] at heq
          simp only [List.cons.injEq] at heq
          have hhead : (pathToks rest2 n2).head? = Option.some "option" := by
            rw [← heq.2.2]
            rfl
          exact entryOk_head_ne_option rest2 n2 hok2' hhead
        | some v2 =>
          rw [pathToks_cons_some, pathToks_cons_some] at heq
          simp only [List.cons.injEq] at heq
          obtain ⟨hs, hn⟩ := ih n1 rest2 n2 hok1' hok2' heq.2.2.2.2
          exact ⟨by rw [heq.1, heq.2.2.2.1, hs], hn⟩

/-! ## Access paths emitted by `flatten` -/

/-- Prepend one access step to an emitted entry. -/
def prepStep (st : Step) (e : List Step × String) : List Step × String :=
  (st :: e.1, e.2)

mutual
/-- The (relative access path, name) pairs of the nodes emitted by
`flatten`, in emission order. -/
def emitList : NodeList → List (List Step × String)
  | .nil => []
  | .cons p rest => emitNode p ++ emitList rest

/-- Entries contributed by one node: itself, then its option-gated subtrees,
then its datatype-attribute subtree (the order of `flatten`). -/
def emitNode : Node → List (List Step × String)
  | .mk core opts attrs =>
    ([], core.name) ::
      ((match opts with
        | .some ol => emitOpts core.name ol
        | .none => []) ++
       (match attrs with
        | .some al => (emitList al).map (prepStep (core.name, Option.none))
        | .none => []))

/-- Entries contributed by the options of a node. -/
def emitOpts (parent : String) : NodeList → List (List Step × String)
  | .nil => []
  | .cons (.mk _ _ .none) rest => emitOpts parent rest
  | .cons (.mk oc _ (.some oattrs)) rest =>
    (emitList oattrs).map (prepStep (parent, Option.some oc.value)) ++ emitOpts parent rest
end

/-- The `KEY_VALUE`s of the nodes of a list, in order. -/
def valuesOf : NodeList → List String
  | .nil => []
  | .cons n t => n.core.value :: valuesOf t

mutual
/-- Well-formedness of the nodes of a list (see `wellFormedTree`). -/
def wfNodes : NodeList → Bool
  | .nil => true
  | .cons n rest => wfNode n && wfNodes rest

/-- Well-formedness of one node: a usable underscore-free name (not the
marker word `option`), a declared type, pairwise-distinct option values, and
recursively well-formed options and attributes with pairwise-distinct sibling
names. -/
def wfNode : Node → Bool
  | .mk core opts attrs =>
    tokName core.name && core.type_.isSome &&
    (match opts with
     | .some ol => distinctB (valuesOf ol) && wfOpts ol
     | .none => true) &&
    (match attrs with
     | .some al => distinctB al.names && wfNodes al
     | .none => true)

/-- Well-formedness of an option list: underscore-free values and recursively
well-formed nested attributes with pairwise-distinct sibling names. -/
def wfOpts : NodeList → Bool
  | .nil => true
  | .cons (.mk oc _ oattrs) rest =>
    noUnd oc.value &&
    (match oattrs with
     | .some l => distinctB l.names && wfNodes l
     | .none => true) && wfOpts rest
end

/-- Well-formedness of a whole input tree: pairwise-distinct top-level names
and recursively well-formed nodes. -/
def wellFormedTree (l : NodeList) : Bool :=
  distinctB l.names && wfNodes l

/-- Invariant linking the string prefix carried by `flatten` with the token
list of the access path so far. -/
def pfxInv (pt : List String) (pfxS : Option String) : Prop :=
  (pt = [] ∧ pfxS = Option.none) ∨ (pt ≠ [] ∧ pfxS = Option.some (joinU pt ++ "_"))

/-- The flat name of an entry under an absolute token prefix. -/
def encodeAbs (pt : List String) (e : List Step × String) : String :=
  joinU (pt ++ pathToks e.1 e.2)

theorem names_append (a b : NodeList) : (a.append b).names = a.names ++ b.names := by
  cases a with
  | nil => rfl
  | cons n t => simp [NodeList.append, NodeList.names, names_append t b]

theorem joinU_ne_empty_append (pt : List String) :
    ((joinU pt ++ "_") != "") = true := by
  refine bne_iff_ne.mpr (fun h => ?_)
  have := congrArg String.data h
  simp [String.data_append, show ("_" : String).data = ['_'] from rfl] at this

theorem pyEndswith_sep (pt : List String) :
    pyEndswith (joinU pt ++ "_") KEYWORD_SEPARATOR = true := by
  simp only [pyEndswith, KEYWORD_SEPARATOR, String.data_append,
    show ("_" : String).data = ['_'] from rfl]
  show List.isSuffixOf ['_'] ((joinU pt).data ++ ['_']) = true
  simp [List.isSuffixOf, List.isPrefixOf]

theorem formPfx_none_none (p : String) :
    formPfx p Option.none Option.none = joinU [p, "parameters"] ++ "_" := by
  apply String.ext
  simp only [formPfx, joinU, KEYWORD_PARAMS, String.data_append]
  have : ("_parameters_" : String).data =
      ("_" : String).data ++ ("parameters" : String).data ++ ("_" : String).data := by decide
  simp [this, String.data_append]

theorem formPfx_none_some (p v : String) :
    formPfx p Option.none (Option.some v) =
      joinU [p, "parameters", "option", v] ++ "_" := by
  apply String.ext
  simp only [formPfx, joinU, KEYWORD_PARAMS, KEYWORD_OPTION, KEYWORD_SEPARATOR,
    String.data_append]
  have h1 : ("_parameters_" : String).data =
      ("_" : String).data ++ ("parameters" : String).data ++ ("_" : String).data := by decide
  have h2 : ("option_" : String).data =
      ("option" : String).data ++ ("_" : String).data := by decide
  simp [h1, h2, String.data_append]

theorem formPfx_some_none (p : String) (pt : List String) :
    formPfx p (Option.some (joinU pt ++ "_")) Option.none =
      (joinU pt ++ "_") ++ (joinU [p, "parameters"] ++ "_") := by
  simp only [formPfx, joinU_ne_empty_append, pyEndswith_sep, Option.getD,
    Bool.true_and, Bool.not_true, Bool.and_false, if_true, if_false]
  apply String.ext
  have : ("_parameters_" : String).data =
      ("_" : String).data ++ ("parameters" : String).data ++ ("_" : String).data := by decide
  simp [KEYWORD_PARAMS, joinU, this, String.data_append]

theorem formPfx_some_some (p v : String) (pt : List String) :
    formPfx p (Option.some (joinU pt ++ "_")) (Option.some v) =
      (joinU pt ++ "_") ++ (joinU [p, "parameters", "option", v] ++ "_") := by
  simp only [formPfx, joinU_ne_empty_append, pyEndswith_sep, Option.getD,
    Bool.true_and, Bool.not_true, Bool.and_false, if_true, if_false]
  apply String.ext
  have h1 : ("_parameters_" : String).data =
      ("_" : String).data ++ ("parameters" : String).data ++ ("_" : String).data := by decide
  have h2 : ("option_" : String).data =
      ("option" : String).data ++ ("_" : String).data := by decide
  simp [KEYWORD_PARAMS, KEYWORD_OPTION, KEYWORD_SEPARATOR, joinU, h1, h2, String.data_append]

/-- The prefix built by `form_prefix` for the children of `p` under an
option value extends the token path by `p, "parameters", "option", v`
(`form_prefix` encodes the parent name, the `_parameters_` marker and the
`option_<value>_` segment). -/
theorem formPfx_extends_some (p v : String) (pt : List String) (pfxS : Option String)
    (hinv : pfxInv pt pfxS) :
    formPfx p pfxS (Option.some v) =
      joinU (pt ++ [p, "parameters", "option", v]) ++ "_" := by
  rcases hinv with ⟨hpt, hpfx⟩ | ⟨hpt, hpfx⟩
  · subst hpt; subst hpfx
    simpa using formPfx_none_some p v
  · subst hpfx
    rw [formPfx_some_some, joinU_append pt _ hpt (by simp)]
    apply String.ext
    simp [String.data_append, show ("_" : String).data = ['_'] from rfl]

/-- Same for a datatype (optionless) nesting step. -/
theorem formPfx_extends_none (p : String) (pt : List String) (pfxS : Option String)
    (hinv : pfxInv pt pfxS) :
    formPfx p pfxS Option.none = joinU (pt ++ [p, "parameters"]) ++ "_" := by
  rcases hinv with ⟨hpt, hpfx⟩ | ⟨hpt, hpfx⟩
  · subst hpt; subst hpfx
    simpa using formPfx_none_none p
  · subst hpfx
    rw [formPfx_some_none, joinU_append pt _ hpt (by simp)]
    apply String.ext
    simp [String.data_append, show ("_" : String).data = ['_'] from rfl]

theorem pfxInv_extend (pt : List String) (more : List String) (hm : more ≠ []) :
    pfxInv (pt ++ more) (Option.some (joinU (pt ++ more) ++ "_")) := by
  right
  refine ⟨fun h => ?_, rfl⟩
  rcases List.append_eq_nil.mp h with ⟨-, h2⟩
  exact hm h2

theorem pathToks_step (st : Step) (s : List Step) (n : String) :
    pathToks (st :: s) n = stepToks st ++ pathToks s n := by
  simp [pathToks]

theorem encodeAbs_prep (pt : List String) (st : Step) (e : List Step × String) :
    encodeAbs pt (prepStep st e) = encodeAbs (pt ++ stepToks st) e := by
  obtain ⟨s, n⟩ := e
  simp [encodeAbs, prepStep, pathToks_step, List.append_assoc]

theorem map_encode_prep (pt : List String) (st : Step) (L : List (List Step × String)) :
    (L.map (prepStep st)).map (encodeAbs pt) = L.map (encodeAbs (pt ++ stepToks st)) := by
  rw [List.map_map]
  exact List.map_congr_left (fun e _ => encodeAbs_prep pt st e)

theorem encodeAbs_nil_name (n : String) : encodeAbs [] ([], n) = n := by
  simp [encodeAbs, pathToks, joinU]

theorem encodeAbs_pt_name (pt : List String) (hpt : pt ≠ []) (n : String) :
    encodeAbs pt ([], n) = joinU pt ++ "_" ++ n := by
  show joinU (pt ++ pathToks [] n) = _
  rw [pathToks_nil, joinU_append pt [n] hpt (by simp)]
  rfl

theorem wfNodes_cons (p : Node) (rest : NodeList) (h : wfNodes (.cons p rest) = true) :
    wfNode p = true ∧ wfNodes rest = true := by
  rw [wfNodes.eq_def] at h
  simpa [Bool.and_eq_true] using h

theorem wfNode_typed (core : NodeCore) (opts attrs : NLOpt)
    (h : wfNode (.mk core opts attrs) = true) : core.type_.isSome = true := by
  rw [wfNode.eq_def] at h
  simp only [Bool.and_eq_true] at h
  exact h.1.1.2

theorem wfNode_name (core : NodeCore) (opts attrs : NLOpt)
    (h : wfNode (.mk core opts attrs) = true) : tokName core.name = true := by
  rw [wfNode.eq_def] at h
  simp only [Bool.and_eq_true] at h
  exact h.1.1.1

theorem wfNode_opts (core : NodeCore) (ol : NodeList) (attrs : NLOpt)
    (h : wfNode (.mk core (.some ol) attrs) = true) :
    distinctB (valuesOf ol) = true ∧ wfOpts ol = true := by
  rw [wfNode.eq_def] at h
  simp only [Bool.and_eq_true] at h
  exact h.1.2

theorem wfNode_attrs (core : NodeCore) (opts : NLOpt) (al : NodeList)
    (h : wfNode (.mk core opts (.some al)) = true) :
    distinctB al.names = true ∧ wfNodes al = true := by
  rw [wfNode.eq_def] at h
  simp only [Bool.and_eq_true] at h
  exact h.2

theorem wfOpts_cons_rest (oc : NodeCore) (oopts oattrs : NLOpt) (rest : NodeList)
    (h : wfOpts (.cons (.mk oc oopts oattrs) rest) = true) : wfOpts rest = true := by
  rw [wfOpts.eq_def] at h
  cases oattrs <;> simp only [Bool.and_eq_true] at h <;> exact h.2

theorem wfOpts_cons_val (oc : NodeCore) (oopts oattrs : NLOpt) (rest : NodeList)
    (h : wfOpts (.cons (.mk oc oopts oattrs) rest) = true) : noUnd oc.value = true := by
  rw [wfOpts.eq_def] at h
  cases oattrs <;> simp only [Bool.and_eq_true] at h <;> exact h.1.1

theorem wfOpts_cons_attrs (oc : NodeCore) (oopts : NLOpt) (l : NodeList) (rest : NodeList)
    (h : wfOpts (.cons (.mk oc oopts (.some l)) rest) = true) :
    distinctB l.names = true ∧ wfNodes l = true := by
  rw [wfOpts.eq_def] at h
  simp only [Bool.and_eq_true] at h
  exact h.1.2

mutual
/-- The names produced by `flatten` are exactly the encoded access paths of
the emitted entries. -/
theorem flatten_names_eq (l : NodeList) (pfxS : Option String) (pt : List String)
    (hinv : pfxInv pt pfxS) (hwf : wfNodes l = true) :
    (flatten l pfxS).names = (emitList l).map (encodeAbs pt) := by
  rw [flatten.eq_def, emitList.eq_def]
  cases l with
  | nil => rfl
  | cons p rest =>
    show ((flattenOne pfxS p).append (flatten rest pfxS)).names
      = (emitNode p ++ emitList rest).map (encodeAbs pt)
    rw [names_append, List.map_append,
      flattenOne_names_eq p pfxS pt hinv (wfNodes_cons p rest hwf).1,
      flatten_names_eq rest pfxS pt hinv (wfNodes_cons p rest hwf).2]
termination_by sizeOf l
decreasing_by all_goals
  simp_wf
  try subst_vars
  try simp only [Node.mk.sizeOf_spec, NLOpt.some.sizeOf_spec, NodeList.cons.sizeOf_spec]
  omega

theorem flattenOne_names_eq (p : Node) (pfxS : Option String) (pt : List String)
    (hinv : pfxInv pt pfxS) (hwf : wfNode p = true) :
    (flattenOne pfxS p).names = (emitNode p).map (encodeAbs pt) := by
  rcases hp : p with ⟨core, opts, attrs⟩
  subst hp
  have hty := wfNode_typed core opts attrs hwf
  rw [flattenOne.eq_def, emitNode.eq_def]
  rcases hinv with ⟨hpt, hpfx⟩ | ⟨hpt, hpfx⟩ <;> subst hpfx <;>
    cases opts <;> cases attrs <;>
    simp only [NodeList.names, Node.core, names_append,
      NodeList.append, List.map_cons, List.map_append, List.nil_append, List.append_nil,
      hty, if_true]
  case mk.inl.intro.none.none =>
    subst hpt
    rw [encodeAbs_nil_name]
    rfl
  case mk.inl.intro.none.some al =>
    subst hpt
    rw [encodeAbs_nil_name, formPfx_extends_none core.name [] Option.none (Or.inl ⟨rfl, rfl⟩),
      flatten_names_eq al _ ([] ++ [core.name, "parameters"])
        (pfxInv_extend [] [core.name, "parameters"] (by simp))
        (wfNode_attrs core .none al hwf).2,
      map_encode_prep]
    try constructor <;> rfl
  case mk.inl.intro.some.none ol =>
    subst hpt
    rw [encodeAbs_nil_name,
      flattenOptsScan_names_eq core.name ol Option.none [] (Or.inl ⟨rfl, rfl⟩)
        (wfNode_opts core ol .none hwf).2]
    try constructor <;> rfl
  case mk.inl.intro.some.some ol al =>
    subst hpt
    rw [encodeAbs_nil_name,
      flattenOptsScan_names_eq core.name ol Option.none [] (Or.inl ⟨rfl, rfl⟩)
        (wfNode_opts core ol (.some al) hwf).2,
      formPfx_extends_none core.name [] Option.none (Or.inl ⟨rfl, rfl⟩),
      flatten_names_eq al _ ([] ++ [core.name, "parameters"])
        (pfxInv_extend [] [core.name, "parameters"] (by simp))
        (wfNode_attrs core (.some ol) al hwf).2,
      map_encode_prep]
    try constructor <;> rfl
  case mk.inr.intro.none.none =>
    rw [encodeAbs_pt_name pt hpt]
    rfl
  case mk.inr.intro.none.some al =>
    rw [encodeAbs_pt_name pt hpt,
      formPfx_extends_none core.name pt _ (Or.inr ⟨hpt, rfl⟩),
      flatten_names_eq al _ (pt ++ [core.name, "parameters"])
        (pfxInv_extend pt [core.name, "parameters"] (by simp))
        (wfNode_attrs core .none al hwf).2,
      map_encode_prep]
    try constructor <;> rfl
  case mk.inr.intro.some.none ol =>
    rw [encodeAbs_pt_name pt hpt,
      flattenOptsScan_names_eq core.name ol _ pt (Or.inr ⟨hpt, rfl⟩)
        (wfNode_opts core ol .none hwf).2]
    try constructor <;> rfl
  case mk.inr.intro.some.some ol al =>
    rw [encodeAbs_pt_name pt hpt,
      flattenOptsScan_names_eq core.name ol _ pt (Or.inr ⟨hpt, rfl⟩)
        (wfNode_opts core ol (.some al) hwf).2,
      formPfx_extends_none core.name pt _ (Or.inr ⟨hpt, rfl⟩),
      flatten_names_eq al _ (pt ++ [core.name, "parameters"])
        (pfxInv_extend pt [core.name, "parameters"] (by simp))
        (wfNode_attrs core (.some ol) al hwf).2,
      map_encode_prep]
    try constructor <;> rfl
termination_by sizeOf p
decreasing_by all_goals
  simp_wf
  try subst_vars
  try simp only [Node.mk.sizeOf_spec, NLOpt.some.sizeOf_spec, NodeList.cons.sizeOf_spec]
  omega

theorem flattenOptsScan_names_eq (parent : String) (ol : NodeList) (pfxS : Option String)
    (pt : List String) (hinv : pfxInv pt pfxS) (hwf : wfOpts ol = true) :
    (flattenOptsScan parent pfxS ol).names = (emitOpts parent ol).map (encodeAbs pt) := by
  rw [flattenOptsScan.eq_def, emitOpts.eq_def]
  cases ol with
  | nil => rfl
  | cons o rest =>
    rcases ho : o with ⟨oc, oopts, oattrs⟩
    subst ho
    cases oattrs with
    | none =>
      show (flattenOptsScan parent pfxS rest).names = _
      exact flattenOptsScan_names_eq parent rest pfxS pt hinv
        (wfOpts_cons_rest oc oopts .none rest hwf)
    | some oattrs =>
      show ((flatten oattrs (Option.some (formPfx parent pfxS (Option.some oc.value)))).append
          (flattenOptsScan parent pfxS rest)).names
        = ((emitList oattrs).map (prepStep (parent, Option.some oc.value)) ++
            emitOpts parent rest).map (encodeAbs pt)
      rw [names_append, List.map_append,
        formPfx_extends_some parent oc.value pt pfxS hinv,
        flatten_names_eq oattrs _ (pt ++ [parent, "parameters", "option", oc.value])
          (pfxInv_extend pt [parent, "parameters", "option", oc.value] (by simp))
          (wfOpts_cons_attrs oc oopts oattrs rest hwf).2,
        map_encode_prep,
        flattenOptsScan_names_eq parent rest pfxS pt hinv
          (wfOpts_cons_rest oc oopts (.some oattrs) rest hwf)]
      rfl
termination_by sizeOf ol
decreasing_by all_goals
  simp_wf
  try subst_vars
  try simp only [Node.mk.sizeOf_spec, NLOpt.some.sizeOf_spec, NodeList.cons.sizeOf_spec]
  omega
end

/-! ## Validity and distinctness of the emitted entries -/

theorem distinctB_cons (x : String) (t : List String) (h : distinctB (x :: t) = true) :
    x ∉ t ∧ distinctB t = true := by
  simp only [distinctB, Bool.and_eq_true, Bool.not_eq_true'] at h
  refine ⟨fun hm => ?_, h.2⟩
  have hc : t.contains x = true := List.elem_iff.mpr hm
  rw [h.1] at hc
  exact Bool.false_ne_true hc

theorem prepStep_injective (st : Step) : Function.Injective (prepStep st) := by
  intro e f h
  simp only [prepStep, Prod.mk.injEq, List.cons.injEq] at h
  exact Prod.ext h.1.2 h.2

theorem entryOkB_nil (n : String) (h : tokName n = true) : entryOkB ([], n) = true := by
  simp [entryOkB, h]

theorem entryOkB_prep (p : String) (ov : Option String) (e : List Step × String)
    (hp : tokName p = true)
    (hv : (match ov with | Option.some v => noUnd v | Option.none => true) = true)
    (he : entryOkB e = true) : entryOkB (prepStep (p, ov) e) = true := by
  rcases e with ⟨steps, n⟩
  simp only [entryOkB, Bool.and_eq_true] at he
  simp only [prepStep, entryOkB, List.all_cons, Bool.and_eq_true]
  exact ⟨⟨⟨hp, hv⟩, he.1⟩, he.2⟩

theorem pathToks_ne_nil (steps : List Step) (n : String) : pathToks steps n ≠ [] := by
  simp [pathToks]

/-- All tokens of a valid entry's path are underscore-free. -/
theorem entryOk_toks_noUnd (steps : List Step) (n : String)
    (h : entryOkB (steps, n) = true) : ∀ t ∈ pathToks steps n, noUnd t = true := by
  induction steps with
  | nil =>
    intro t ht
    rw [pathToks_nil] at ht
    simp only [List.mem_singleton] at ht
    subst ht
    simp only [entryOkB, List.all_nil, Bool.true_and, tokName, Bool.and_eq_true] at h
    exact h.1
  | cons st rest ih =>
    intro t ht
    have h' := entryOkB_cons st rest n h
    simp only [entryOkB, List.all_cons, Bool.and_eq_true, tokName] at h
    rcases st with ⟨p, ov⟩
    cases ov with
    | none =>
      rw [pathToks_cons_none] at ht
      simp only [List.mem_cons] at ht
      rcases ht with rfl | rfl | ht
      · exact h.1.1.1.1
      · decide
      · exact ih h' t ht
    | some v =>
      rw [pathToks_cons_some] at ht
      simp only [List.mem_cons] at ht
      rcases ht with rfl | rfl | rfl | rfl | ht
      · exact h.1.1.1.1
      · decide
      · decide
      · exact h.1.1.2
      · exact ih h' t ht

/-- The top-level name of an emitted entry: the head of its access path, or
its own name when the path is empty. -/
def headName : List Step × String → String
  | ([], n) => n
  | ((p, _) :: _, _) => p

theorem headName_prep (p : String) (ov : Option String) (e : List Step × String) :
    headName (prepStep (p, ov) e) = p := by
  rcases e with ⟨steps, n⟩
  rfl

/-- Every entry of `emitOpts` is one access step below the parent, gated by
one of the option values. -/
theorem emitOpts_shape (parent : String) (ol : NodeList) :
    ∀ e ∈ emitOpts parent ol, ∃ v e1, v ∈ valuesOf ol ∧
      e = prepStep (parent, Option.some v) e1 := by
  rw [emitOpts.eq_def]
  cases ol with
  | nil => intro e he; simp at he
  | cons o rest =>
    rcases ho : o with ⟨oc, oopts, oattrs⟩
    subst ho
    cases oattrs with
    | none =>
      intro e he
      obtain ⟨v, e1, hv, hes⟩ := emitOpts_shape parent rest e he
      exact ⟨v, e1, List.mem_cons_of_mem _ hv, hes⟩
    | some oattrs =>
      intro e he
      rcases List.mem_append.mp he with hm | hm
      · obtain ⟨e1, _, hes⟩ := List.mem_map.mp hm
        exact ⟨oc.value, e1, List.mem_cons_self _ _, hes.symm⟩
      · obtain ⟨v, e1, hv, hes⟩ := emitOpts_shape parent rest e hm
        exact ⟨v, e1, List.mem_cons_of_mem _ hv, hes⟩
termination_by sizeOf ol
decreasing_by all_goals
  first
  | (simp_wf
     try subst_vars
     try simp only [Node.mk.sizeOf_spec, NLOpt.some.sizeOf_spec, NodeList.cons.sizeOf_spec]
     omega)
  | simp_wf

/-- Every entry contributed by a node carries that node's name at the top. -/
theorem emitNode_headName (core : NodeCore) (opts attrs : NLOpt) :
    ∀ e ∈ emitNode (.mk core opts attrs), headName e = core.name := by
  rw [emitNode.eq_def]
  intro e he
  rcases List.mem_cons.mp he with rfl | hm
  · rfl
  · rcases List.mem_append.mp hm with hm2 | hm2
    · cases opts with
      | none => simp at hm2
      | some ol =>
        obtain ⟨v, e1, _, hes⟩ := emitOpts_shape core.name ol e hm2
        rw [hes, headName_prep]
    · cases attrs with
      | none => simp at hm2
      | some al =>
        obtain ⟨e1, _, hes⟩ := List.mem_map.mp hm2
        rw [← hes, headName_prep]

/-- Every entry of `emitList` is headed by one of the top-level names. -/
theorem emitList_headName_mem (l : NodeList) :
    ∀ e ∈ emitList l, headName e ∈ l.names := by
  rw [emitList.eq_def]
  cases l with
  | nil => intro e he; simp at he
  | cons p rest =>
    intro e he
    rcases List.mem_append.mp he with hm | hm
    · rcases hp : p with ⟨core, opts, attrs⟩
      subst hp
      rw [emitNode_headName core opts attrs e hm]
      exact List.mem_cons_self _ _
    · exact List.mem_cons_of_mem _ (emitList_headName_mem rest e hm)
termination_by sizeOf l
decreasing_by all_goals
  first
  | (simp_wf
     try subst_vars
     omega)
  | simp_wf

mutual
/-- Under well-formedness, every entry emitted for a node list is valid. -/
theorem emitList_ok (l : NodeList) (hw : wfNodes l = true) :
    ∀ e ∈ emitList l, entryOkB e = true := by
  rw [emitList.eq_def]
  cases l with
  | nil => intro e he; simp at he
  | cons p rest =>
    intro e he
    rcases List.mem_append.mp he with hm | hm
    · exact emitNode_ok p (wfNodes_cons p rest hw).1 e hm
    · exact emitList_ok rest (wfNodes_cons p rest hw).2 e hm
termination_by sizeOf l
decreasing_by all_goals
  first
  | (simp_wf
     try subst_vars
     try simp only [Node.mk.sizeOf_spec, NLOpt.some.sizeOf_spec, NodeList.cons.sizeOf_spec]
     omega)
  | simp_wf

/-- Under well-formedness, every entry emitted for a node is valid. -/
theorem emitNode_ok (p : Node) (hw : wfNode p = true) :
    ∀ e ∈ emitNode p, entryOkB e = true := by
  rcases hp : p with ⟨core, opts, attrs⟩
  subst hp
  rw [emitNode.eq_def]
  intro e he
  rcases List.mem_cons.mp he with rfl | hm
  · exact entryOkB_nil core.name (wfNode_name core opts attrs hw)
  · rcases List.mem_append.mp hm with hm2 | hm2
    · cases opts with
      | none => simp at hm2
      | some ol =>
        exact emitOpts_ok core.name ol (wfNode_name core (.some ol) attrs hw)
          (wfNode_opts core ol attrs hw).2 e hm2
    · cases attrs with
      | none => simp at hm2
      | some al =>
        obtain ⟨e1, he1, hes⟩ := List.mem_map.mp hm2
        rw [← hes]
        exact entryOkB_prep core.name Option.none e1
          (wfNode_name core opts (.some al) hw) rfl
          (emitList_ok al (wfNode_attrs core opts al hw).2 e1 he1)
termination_by sizeOf p
decreasing_by all_goals
  first
  | (simp_wf
     try subst_vars
     try simp only [Node.mk.sizeOf_spec, NLOpt.some.sizeOf_spec, NodeList.cons.sizeOf_spec]
     omega)
  | simp_wf

/-- Under well-formedness of the option list and a usable parent name, every
entry emitted for the options is valid. -/
theorem emitOpts_ok (parent : String) (ol : NodeList) (hp : tokName parent = true)
    (hw : wfOpts ol = true) : ∀ e ∈ emitOpts parent ol, entryOkB e = true := by
  rw [emitOpts.eq_def]
  cases ol with
  | nil => intro e he; simp at he
  | cons o rest =>
    rcases ho : o with ⟨oc, oopts, oattrs⟩
    subst ho
    cases oattrs with
    | none =>
      intro e he
      exact emitOpts_ok parent rest hp (wfOpts_cons_rest oc oopts .none rest hw) e he
    | some oattrs =>
      intro e he
      rcases List.mem_append.mp he with hm | hm
      · obtain ⟨e1, he1, hes⟩ := List.mem_map.mp hm
        rw [← hes]
        exact entryOkB_prep parent (Option.some oc.value) e1 hp
          (wfOpts_cons_val oc oopts (.some oattrs) rest hw)
          (emitList_ok oattrs (wfOpts_cons_attrs oc oopts oattrs rest hw).2 e1 he1)
      · exact emitOpts_ok parent rest hp
          (wfOpts_cons_rest oc oopts (.some oattrs) rest hw) e hm
termination_by sizeOf ol
decreasing_by all_goals
  first
  | (simp_wf
     try subst_vars
     try simp only [Node.mk.sizeOf_spec, NLOpt.some.sizeOf_spec, NodeList.cons.sizeOf_spec]
     omega)
  | simp_wf
end

mutual
/-- Under well-formedness (with pairwise-distinct sibling names), the entries
emitted for a node list are pairwise distinct. -/
theorem emitList_nodup (l : NodeList) (hd : distinctB l.names = true)
    (hw : wfNodes l = true) : (emitList l).Nodup := by
  rw [emitList.eq_def]
  cases l with
  | nil => exact List.nodup_nil
  | cons p rest =>
    rcases hp : p with ⟨core, opts, attrs⟩
    subst hp
    have hd' := distinctB_cons core.name rest.names hd
    refine List.Nodup.append
      (emitNode_nodup _ (wfNodes_cons _ rest hw).1)
      (emitList_nodup rest hd'.2 (wfNodes_cons _ rest hw).2)
      (fun e he1 he2 => ?_)
    have h1 := emitNode_headName core opts attrs e he1
    have h2 := emitList_headName_mem rest e he2
    rw [h1] at h2
    exact hd'.1 h2
termination_by sizeOf l
decreasing_by all_goals
  first
  | (simp_wf
     try subst_vars
     try simp only [Node.mk.sizeOf_spec, NLOpt.some.sizeOf_spec, NodeList.cons.sizeOf_spec]
     omega)
  | simp_wf

/-- Under well-formedness, the entries emitted for one node are pairwise
distinct. -/
theorem emitNode_nodup (p : Node) (hw : wfNode p = true) : (emitNode p).Nodup := by
  rcases hp : p with ⟨core, opts, attrs⟩
  subst hp
  rw [emitNode.eq_def]
  rw [List.nodup_cons]
  constructor
  · intro hm
    rcases List.mem_append.mp hm with hm2 | hm2
    · cases opts with
      | none => simp at hm2
      | some ol =>
        obtain ⟨v, e1, _, hes⟩ := emitOpts_shape core.name ol _ hm2
        simp [prepStep, Prod.ext_iff] at hes
    · cases attrs with
      | none => simp at hm2
      | some al =>
        obtain ⟨e1, _, hes⟩ := List.mem_map.mp hm2
        simp [prepStep, Prod.ext_iff] at hes
  · apply List.Nodup.append
    · cases opts with
      | none => exact List.nodup_nil
      | some ol =>
        exact emitOpts_nodup core.name ol (wfNode_opts core ol attrs hw).1
          (wfNode_opts core ol attrs hw).2
    · cases attrs with
      | none => exact List.nodup_nil
      | some al =>
        exact List.Nodup.map (prepStep_injective _)
          (emitList_nodup al (wfNode_attrs core opts al hw).1
            (wfNode_attrs core opts al hw).2)
    · intro e he1 he2
      cases opts with
      | none => simp at he1
      | some ol =>
        cases attrs with
        | none => simp at he2
        | some al =>
          obtain ⟨v, e1, _, hes1⟩ := emitOpts_shape core.name ol e he1
          obtain ⟨e2', _, hes2⟩ := List.mem_map.mp he2
          rw [hes1, prepStep] at hes2
          simp [prepStep, Prod.ext_iff] at hes2
termination_by sizeOf p
decreasing_by all_goals
  first
  | (simp_wf
     try subst_vars
     try simp only [Node.mk.sizeOf_spec, NLOpt.some.sizeOf_spec, NodeList.cons.sizeOf_spec]
     omega)
  | simp_wf

/-- Under well-formedness (with pairwise-distinct option values), the entries
emitted for an option list are pairwise distinct. -/
theorem emitOpts_nodup (parent : String) (ol : NodeList)
    (hd : distinctB (valuesOf ol) = true) (hw : wfOpts ol = true) :
    (emitOpts parent ol).Nodup := by
  rw [emitOpts.eq_def]
  cases ol with
  | nil => exact List.nodup_nil
  | cons o rest =>
    rcases ho : o with ⟨oc, oopts, oattrs⟩
    subst ho
    have hd' := distinctB_cons oc.value (valuesOf rest) hd
    cases oattrs with
    | none =>
      exact emitOpts_nodup parent rest hd'.2 (wfOpts_cons_rest oc oopts .none rest hw)
    | some oattrs =>
      refine List.Nodup.append
        (List.Nodup.map (prepStep_injective _)
          (emitList_nodup oattrs (wfOpts_cons_attrs oc oopts oattrs rest hw).1
            (wfOpts_cons_attrs oc oopts oattrs rest hw).2))
        (emitOpts_nodup parent rest hd'.2
          (wfOpts_cons_rest oc oopts (.some oattrs) rest hw))
        (fun e he1 he2 => ?_)
      obtain ⟨e1, _, hes1⟩ := List.mem_map.mp he1
      obtain ⟨v, e2, hv, hes2⟩ := emitOpts_shape parent rest e he2
      rw [← hes1, prepStep] at hes2
      simp only [prepStep, Prod.mk.injEq, List.cons.injEq, Prod.ext_iff,
        Option.some.injEq] at hes2
      exact hd'.1 (hes2.1.1.2 ▸ hv)
termination_by sizeOf ol
decreasing_by all_goals
  first
  | (simp_wf
     try subst_vars
     try simp only [Node.mk.sizeOf_spec, NLOpt.some.sizeOf_spec, NodeList.cons.sizeOf_spec]
     omega)
  | simp_wf
end

/-- Under well-formedness, `flatten` with no initial prefix yields
pairwise-distinct flattened names. -/
theorem flatten_names_nodup (l : NodeList) (h : wellFormedTree l = true) :
    ((flatten l Option.none).names).Nodup := by
  have hd : distinctB l.names = true ∧ wfNodes l = true := by
    simpa [wellFormedTree, Bool.and_eq_true] using h
  rw [flatten_names_eq l Option.none [] (Or.inl ⟨rfl, rfl⟩) hd.2]
  refine List.Nodup.map_on (fun e1 he1 e2 he2 henc => ?_) (emitList_nodup l hd.1 hd.2)
  have hok1 := emitList_ok l hd.2 e1 he1
  have hok2 := emitList_ok l hd.2 e2 he2
  rcases e1 with ⟨s1, n1⟩
  rcases e2 with ⟨s2, n2⟩
  simp only [encodeAbs, List.nil_append] at henc
  have htoks : pathToks s1 n1 = pathToks s2 n2 :=
    joinU_inj _ _ (pathToks_ne_nil s1 n1) (pathToks_ne_nil s2 n2)
      (entryOk_toks_noUnd s1 n1 hok1) (entryOk_toks_noUnd s2 n2 hok2) henc
  obtain ⟨hs, hn⟩ := pathToks_inj s1 n1 s2 n2 hok1 hok2 htoks
  rw [hs, hn]

/-! ## Idempotency of `fill_defaults` -/

/-- The loop body of `fill_defaults` only rewrites the `default` key of the
node dictionary (besides recursing into options and attributes). -/
theorem fillDefaultsOne_shape (data : Kwargs) (fub : Bool) (core : NodeCore)
    (opts attrs : NLOpt) (p' : Node)
    (h : fillDefaultsOne data fub (.mk core opts attrs) = Option.some p') :
    ∃ d opts' attrs', p' = .mk { core with default := d } opts' attrs' := by
  rw [fillDefaultsOne.eq_def] at h
  simp only [] at h
  rcases ha : fillDefaultsAttrs data fub attrs with _ | attrs' <;> rw [ha] at h
  · exact Option.noConfusion h
  · rcases hop : fillDefaultsOpts data fub core opts with _ | opts' <;> rw [hop] at h
    · exact Option.noConfusion h
    · exact ⟨_, _, _, (Option.some.inj h).symm⟩

mutual
/-- `fill_defaults` is idempotent on the tree it returns. -/
theorem fillDefaults_idem (l : NodeList) (data : Kwargs) (fub : Bool) (l' : NodeList)
    (h : fillDefaults l data fub = Option.some l') :
    fillDefaults l' data fub = Option.some l' := by
  rw [fillDefaults.eq_def] at h
  cases l with
  | nil =>
    have hl : l' = .nil := (Option.some.inj h).symm
    subst hl
    rw [fillDefaults.eq_def]
  | cons p rest =>
    simp only [] at h
    rcases h1 : fillDefaultsOne data fub p with _ | p₁ <;> rw [h1] at h
    · exact Option.noConfusion h
    · rcases h2 : fillDefaults rest data fub with _ | rest₁ <;> rw [h2] at h
      · exact Option.noConfusion h
      · have hl : l' = .cons p₁ rest₁ := (Option.some.inj h).symm
        subst hl
        rw [fillDefaults.eq_def]
        simp only []
        rw [fillDefaultsOne_idem data fub p p₁ h1,
          fillDefaults_idem rest data fub rest₁ h2]
termination_by sizeOf l
decreasing_by all_goals
  first
  | (simp_wf
     try subst_vars
     try simp only [Node.mk.sizeOf_spec, NLOpt.some.sizeOf_spec, NodeList.cons.sizeOf_spec]
     omega)
  | simp_wf

/-- The attribute recursion of `fill_defaults` is idempotent on its result. -/
theorem fillDefaultsAttrs_idem (data : Kwargs) (fub : Bool) (attrs attrs' : NLOpt)
    (h : fillDefaultsAttrs data fub attrs = Option.some attrs') :
    fillDefaultsAttrs data fub attrs' = Option.some attrs' := by
  rw [fillDefaultsAttrs.eq_def] at h
  cases attrs with
  | none =>
    have ha : attrs' = .none := (Option.some.inj h).symm
    subst ha
    rw [fillDefaultsAttrs.eq_def]
  | some al =>
    simp only [] at h
    rcases hfl : fillDefaults al data fub with _ | al₁ <;> rw [hfl] at h
    · exact Option.noConfusion h
    · have ha : attrs' = .some al₁ := (Option.some.inj h).symm
      subst ha
      rw [fillDefaultsAttrs.eq_def]
      simp only []
      rw [fillDefaults_idem al data fub al₁ hfl]
termination_by sizeOf attrs
decreasing_by all_goals
  first
  | (simp_wf
     try subst_vars
     try simp only [Node.mk.sizeOf_spec, NLOpt.some.sizeOf_spec, NodeList.cons.sizeOf_spec]
     omega)
  | simp_wf

/-- The `new_options` computation of `fill_defaults` is idempotent on its
result, for any second node dictionary with the same name and type. -/
theorem fillDefaultsOpts_idem (data : Kwargs) (fub : Bool) (core core' : NodeCore)
    (opts opts' : NLOpt) (hn : core'.name = core.name) (ht : core'.type_ = core.type_)
    (h : fillDefaultsOpts data fub core opts = Option.some opts') :
    fillDefaultsOpts data fub core' opts' = Option.some opts' := by
  rw [fillDefaultsOpts.eq_def] at h
  cases opts with
  | none =>
    have ho : opts' = .none := (Option.some.inj h).symm
    subst ho
    rw [fillDefaultsOpts.eq_def]
  | some ol =>
    simp only [] at h
    by_cases hc : (kwMem data core.name || fub) = true
    · rw [if_pos hc] at h
      rcases hsv : computeSelVals data core.name core.type_ with _ | sv <;> rw [hsv] at h
      · exact Option.noConfusion h
      · simp only [] at h
        rcases hsc : fillDefaultsOptsScan sv data fub ol with _ | ol₁ <;> rw [hsc] at h
        · exact Option.noConfusion h
        · have ho : opts' = .some ol₁ := (Option.some.inj h).symm
          subst ho
          rw [fillDefaultsOpts.eq_def]
          simp only []
          rw [hn, ht, if_pos hc, hsv]
          simp only []
          rw [fillDefaultsOptsScan_idem sv data fub ol ol₁ hsc]
          try rfl
    · rw [if_neg hc] at h
      have ho : opts' = .some ol := (Option.some.inj h).symm
      subst ho
      rw [fillDefaultsOpts.eq_def]
      simp only []
      rw [hn, ht, if_neg hc]
termination_by sizeOf opts
decreasing_by all_goals
  first
  | (simp_wf
     try subst_vars
     try simp only [Node.mk.sizeOf_spec, NLOpt.some.sizeOf_spec, NodeList.cons.sizeOf_spec]
     omega)
  | simp_wf

/-- The loop body of `fill_defaults` is idempotent on the node it returns. -/
theorem fillDefaultsOne_idem (data : Kwargs) (fub : Bool) (p p' : Node)
    (h : fillDefaultsOne data fub p = Option.some p') :
    fillDefaultsOne data fub p' = Option.some p' := by
  rcases hp : p with ⟨core, opts, attrs⟩
  subst hp
  rw [fillDefaultsOne.eq_def] at h
  simp only [] at h
  rcases ha : fillDefaultsAttrs data fub attrs with _ | attrs' <;> rw [ha] at h
  · exact Option.noConfusion h
  · rcases hop : fillDefaultsOpts data fub core opts with _ | opts' <;> rw [hop] at h
    · exact Option.noConfusion h
    · have hp' := (Option.some.inj h).symm
      subst hp'
      rw [fillDefaultsOne.eq_def]
      simp only []
      rw [fillDefaultsAttrs_idem data fub attrs attrs' ha]
      simp only []
      rw [fillDefaultsOpts_idem data fub core
        { core with default :=
            match kwLookup data core.name with
            | Option.some dv => Option.some dv
            | Option.none => core.default }
        opts opts' rfl rfl hop]
      simp only []
      rcases hk : kwLookup data core.name with _ | dv <;> rfl
termination_by sizeOf p
decreasing_by all_goals
  first
  | (simp_wf
     try subst_vars
     try simp only [Node.mk.sizeOf_spec, NLOpt.some.sizeOf_spec, NodeList.cons.sizeOf_spec]
     omega)
  | simp_wf

/-- The option-loop of `fill_defaults` is idempotent on the list it returns. -/
theorem fillDefaultsOptsScan_idem (sv : SelVals) (data : Kwargs) (fub : Bool)
    (l l' : NodeList) (h : fillDefaultsOptsScan sv data fub l = Option.some l') :
    fillDefaultsOptsScan sv data fub l' = Option.some l' := by
  rw [fillDefaultsOptsScan.eq_def] at h
  cases l with
  | nil =>
    have hl : l' = .nil := (Option.some.inj h).symm
    subst hl
    rw [fillDefaultsOptsScan.eq_def]
  | cons o rest =>
    rcases ho : o with ⟨oc, oopts, oattrs⟩
    subst ho
    simp only [Node.core] at h
    by_cases hc : (SelVals.memB sv oc.value || fub) = true
    · rw [if_pos hc] at h
      rcases h1 : fillDefaultsOne data fub (.mk oc oopts oattrs) with _ | o₁ <;> rw [h1] at h
      · exact Option.noConfusion h
      · rcases h2 : fillDefaultsOptsScan sv data fub rest with _ | rest₁ <;> rw [h2] at h
        · exact Option.noConfusion h
        · have hl : l' = .cons o₁ rest₁ := (Option.some.inj h).symm
          subst hl
          obtain ⟨d, o₁opts, o₁attrs, ho₁⟩ :=
            fillDefaultsOne_shape data fub oc oopts oattrs o₁ h1
          subst ho₁
          rw [fillDefaultsOptsScan.eq_def]
          simp only [Node.core]
          rw [if_pos hc,
            fillDefaultsOne_idem data fub (.mk oc oopts oattrs) _ h1,
            fillDefaultsOptsScan_idem sv data fub rest rest₁ h2]
          try rfl
    · rw [if_neg hc] at h
      rcases h2 : fillDefaultsOptsScan sv data fub rest with _ | rest₁ <;> rw [h2] at h
      · exact Option.noConfusion h
      · have hl : l' = .cons (.mk oc oopts oattrs) rest₁ := (Option.some.inj h).symm
        subst hl
        rw [fillDefaultsOptsScan.eq_def]
        simp only [Node.core]
        rw [if_neg hc, fillDefaultsOptsScan_idem sv data fub rest rest₁ h2]
        try rfl
termination_by sizeOf l
decreasing_by all_goals
  first
  | (simp_wf
     try subst_vars
     try simp only [Node.mk.sizeOf_spec, NLOpt.some.sizeOf_spec, NodeList.cons.sizeOf_spec]
     omega)
  | simp_wf
end

/-! ## Key/insert algebra of the flat dictionaries -/

theorem kwLookup_kwInsert (kw : Kwargs) (k : String) (v : PVal) (j : String) :
    kwLookup (kwInsert kw k v) j = if k = j then Option.some v else kwLookup kw j := by
  induction kw with
  | nil => simp [kwInsert, kwLookup]
  | cons p t ih =>
    rcases p with ⟨k', v'⟩
    by_cases h1 : k' = k
    · subst h1
      simp only [kwInsert, if_pos rfl]
      by_cases h2 : k' = j
      · subst h2
        simp [kwLookup]
      · simp [kwLookup, h2]
    · simp only [kwInsert, if_neg h1]
      by_cases h2 : k' = j
      · subst h2
        have hkj : ¬ k = k' := fun he => h1 he.symm
        simp [kwLookup, hkj]
      · simp [kwLookup, h2, ih]

theorem kwMem_false_iff (kw : Kwargs) (k : String) :
    kwMem kw k = false ↔ kwLookup kw k = Option.none := by
  cases h : kwLookup kw k <;> simp [kwMem, h]

/-! ## The names `append_required_defaults` can touch -/

mutual
/-- All node names `append_required_defaults` can read or insert: the
top-level names and, recursively, the names inside each option's
attributes. -/
def ardNames : NodeList → List String
  | .nil => []
  | .cons (.mk core opts _) rest => core.name :: (ardNamesOpts opts ++ ardNames rest)

/-- The `ardNames` contribution of a node's option list. -/
def ardNamesOpts : NLOpt → List String
  | .none => []
  | .some ol => ardNamesOptList ol

/-- The `ardNames` contribution of the options themselves. -/
def ardNamesOptList : NodeList → List String
  | .nil => []
  | .cons (.mk _ _ oattrs) rest => ardNamesAttrs oattrs ++ ardNamesOptList rest

/-- The `ardNames` contribution of one option's attributes. -/
def ardNamesAttrs : NLOpt → List String
  | .none => []
  | .some al => ardNames al
end

/-- The names the second loop of `append_required_defaults` can insert:
everything of `ardNames` except the top level. -/
def nestedNames : NodeList → List String
  | .nil => []
  | .cons (.mk _ opts _) rest => ardNamesOpts opts ++ nestedNames rest

theorem mem_toList_names (l : NodeList) (p : Node) (h : p ∈ l.toList) :
    p.core.name ∈ l.names := by
  rw [NodeList.toList.eq_def] at h
  cases l with
  | nil => simp at h
  | cons q rest =>
    rcases List.mem_cons.mp h with rfl | hm
    · exact List.mem_cons_self _ _
    · exact List.mem_cons_of_mem _ (mem_toList_names rest p hm)
termination_by sizeOf l
decreasing_by all_goals
  first
  | (simp_wf
     try subst_vars
     try simp only [Node.mk.sizeOf_spec, NLOpt.some.sizeOf_spec, NodeList.cons.sizeOf_spec]
     omega)
  | simp_wf

theorem names_sub_ardNames (l : NodeList) (x : String) (h : x ∈ l.names) :
    x ∈ ardNames l := by
  rw [NodeList.names.eq_def] at h
  rw [ardNames.eq_def]
  cases l with
  | nil => simp at h
  | cons q rest =>
    rcases hq : q with ⟨core, opts, attrs⟩
    subst hq
    simp only [Node.core] at h
    rcases List.mem_cons.mp h with rfl | hm
    · exact List.mem_cons_self _ _
    · exact List.mem_cons_of_mem _
        (List.mem_append.mpr (Or.inr (names_sub_ardNames rest x hm)))
termination_by sizeOf l
decreasing_by all_goals
  first
  | (simp_wf
     try subst_vars
     try simp only [Node.mk.sizeOf_spec, NLOpt.some.sizeOf_spec, NodeList.cons.sizeOf_spec]
     omega)
  | simp_wf

theorem nestedNames_sub_ardNames (l : NodeList) (x : String) (h : x ∈ nestedNames l) :
    x ∈ ardNames l := by
  rw [nestedNames.eq_def] at h
  rw [ardNames.eq_def]
  cases l with
  | nil => simp at h
  | cons q rest =>
    rcases hq : q with ⟨core, opts, attrs⟩
    subst hq
    simp only [] at h
    rcases List.mem_append.mp h with hm | hm
    · exact List.mem_cons_of_mem _ (List.mem_append.mpr (Or.inl hm))
    · exact List.mem_cons_of_mem _
        (List.mem_append.mpr (Or.inr (nestedNames_sub_ardNames rest x hm)))
termination_by sizeOf l
decreasing_by all_goals
  first
  | (simp_wf
     try subst_vars
     try simp only [Node.mk.sizeOf_spec, NLOpt.some.sizeOf_spec, NodeList.cons.sizeOf_spec]
     omega)
  | simp_wf

theorem distinctB_cons_intro (x : String) (t : List String) (hx : x ∉ t)
    (ht : distinctB t = true) : distinctB (x :: t) = true := by
  simp only [distinctB, Bool.and_eq_true, Bool.not_eq_true']
  refine ⟨?_, ht⟩
  by_cases hc : t.contains x = true
  · exact absurd (List.elem_iff.mp hc) hx
  · exact Bool.not_eq_true _ ▸ hc

theorem distinctB_append_right (a b : List String) (h : distinctB (a ++ b) = true) :
    distinctB b = true := by
  induction a with
  | nil => exact h
  | cons x t ih => exact ih (distinctB_cons x (t ++ b) h).2

theorem distinctB_append_disjoint (a b : List String) (h : distinctB (a ++ b) = true) :
    ∀ x ∈ a, x ∉ b := by
  induction a with
  | nil => simp
  | cons y t ih =>
    intro x hx
    rcases List.mem_cons.mp hx with rfl | hm
    · intro hb
      exact (distinctB_cons x (t ++ b) h).1 (List.mem_append.mpr (Or.inr hb))
    · exact ih (distinctB_cons y (t ++ b) h).2 x hm

/-- Distinctness of all reachable names gives distinct top-level names. -/
theorem ardNames_distinct_names (l : NodeList) (h : distinctB (ardNames l) = true) :
    distinctB l.names = true := by
  rw [ardNames.eq_def] at h
  rw [NodeList.names.eq_def]
  cases l with
  | nil => rfl
  | cons q rest =>
    rcases hq : q with ⟨core, opts, attrs⟩
    subst hq
    simp only [] at h
    have h1 := distinctB_cons _ _ h
    simp only [Node.core]
    refine distinctB_cons_intro _ _ (fun hm => ?_)
      (ardNames_distinct_names rest (distinctB_append_right _ _ h1.2))
    exact h1.1 (List.mem_append.mpr (Or.inr (names_sub_ardNames rest _ hm)))
termination_by sizeOf l
decreasing_by all_goals
  first
  | (simp_wf
     try subst_vars
     try simp only [Node.mk.sizeOf_spec, NLOpt.some.sizeOf_spec, NodeList.cons.sizeOf_spec]
     omega)
  | simp_wf

/-- With distinct top-level names, a top-level node is determined by its
name. -/
theorem unique_by_name (l : NodeList) (hd : distinctB l.names = true) (p q : Node)
    (hp : p ∈ l.toList) (hq : q ∈ l.toList) (hn : p.core.name = q.core.name) : p = q := by
  rw [NodeList.toList.eq_def] at hp hq
  cases l with
  | nil => simp at hp
  | cons r rest =>
    have hd' := distinctB_cons _ _ (by simpa [NodeList.names] using hd)
    rcases List.mem_cons.mp hp with rfl | hmp <;> rcases List.mem_cons.mp hq with rfl | hmq
    · rfl
    · exact absurd (hn ▸ mem_toList_names rest q hmq) hd'.1
    · exact absurd (hn ▸ mem_toList_names rest p hmp) hd'.1
    · exact unique_by_name rest hd'.2 p q hmp hmq hn
termination_by sizeOf l
decreasing_by all_goals
  first
  | (simp_wf
     try subst_vars
     try simp only [Node.mk.sizeOf_spec, NLOpt.some.sizeOf_spec, NodeList.cons.sizeOf_spec]
     omega)
  | simp_wf

/-- With globally distinct reachable names, a top-level name never occurs
among the nested (option-attribute) names. -/
theorem top_name_not_nested (l : NodeList) (hd : distinctB (ardNames l) = true)
    (p : Node) (hp : p ∈ l.toList) : p.core.name ∉ nestedNames l := by
  rw [NodeList.toList.eq_def] at hp
  rw [nestedNames.eq_def]
  cases l with
  | nil => simp at hp
  | cons q rest =>
    rcases hq : q with ⟨core, opts, attrs⟩
    subst hq
    rw [ardNames.eq_def] at hd
    simp only [] at hd ⊢
    have hd1 := distinctB_cons _ _ hd
    intro hm
    rcases List.mem_cons.mp hp with rfl | hmp
    · simp only [Node.core] at hm
      rcases List.mem_append.mp hm with hm2 | hm2
      · exact hd1.1 (List.mem_append.mpr (Or.inl hm2))
      · exact hd1.1
          (List.mem_append.mpr (Or.inr (nestedNames_sub_ardNames rest _ hm2)))
    · have hnr : p.core.name ∈ ardNames rest :=
        names_sub_ardNames rest _ (mem_toList_names rest p hmp)
      rcases List.mem_append.mp hm with hm2 | hm2
      · exact distinctB_append_disjoint _ _ hd1.2 _ hm2 hnr
      · exact top_name_not_nested rest
          (distinctB_append_right _ _ hd1.2) p hmp hm2
termination_by sizeOf l
decreasing_by all_goals
  first
  | (simp_wf
     try subst_vars
     try simp only [Node.mk.sizeOf_spec, NLOpt.some.sizeOf_spec, NodeList.cons.sizeOf_spec]
     omega)
  | simp_wf

/-! ## What the loops of `append_required_defaults` do to the dictionary -/

/-- Case analysis of one first-loop step: the rest of the loop runs on either
the unchanged dictionary or on one with the entry's default inserted (and then
all four guard conditions held). -/
theorem appendRDLoop1_cons (kw : Kwargs) (core : NodeCore) (o a : NLOpt)
    (rest : NodeList) (kw' : Kwargs)
    (h : appendRDLoop1 kw (.cons (.mk core o a) rest) = Option.some kw') :
    ∃ kw2, appendRDLoop1 kw2 rest = Option.some kw' ∧
      (kw2 = kw ∨ ∃ d, kw2 = kwInsert kw core.name d ∧ core.default = Option.some d ∧
        core.required = Option.some true ∧ kwMem kw core.name = false ∧
        ∃ t, core.type_ = Option.some t ∧ t ≠ TYPE_DICT) := by
  rw [appendRDLoop1.eq_def] at h
  simp only [] at h
  by_cases h1 : kwMem kw core.name = true
  · rw [if_pos h1] at h
    simp only [] at h
    exact ⟨kw, h, Or.inl rfl⟩
  · rw [if_neg h1] at h
    by_cases h2 : core.required = Option.some true
    · rw [if_neg (by simp [h2])] at h
      rcases hd : core.default with _ | d <;> rw [hd] at h
      · simp only [] at h
        exact ⟨kw, h, Or.inl rfl⟩
      · simp only [] at h
        rcases ht : core.type_ with _ | t <;> rw [ht] at h
        · exact Option.noConfusion h
        · simp only [] at h
          by_cases hdict : t = TYPE_DICT
          · rw [if_pos hdict] at h
            exact ⟨kw, h, Or.inl rfl⟩
          · rw [if_neg hdict] at h
            exact ⟨kwInsert kw core.name d, h,
              Or.inr ⟨d, rfl, rfl, h2, by simpa using h1, t, rfl, hdict⟩⟩
    · rw [if_pos (by simp [bne_iff_ne]; exact h2)] at h
      simp only [] at h
      exact ⟨kw, h, Or.inl rfl⟩

/-- The first loop never changes an existing binding. -/
theorem appendRDLoop1_pres (l : NodeList) (kw kw' : Kwargs) (k : String) (v : PVal)
    (h : appendRDLoop1 kw l = Option.some kw') (hv : kwLookup kw k = Option.some v) :
    kwLookup kw' k = Option.some v := by
  cases l with
  | nil =>
    rw [appendRDLoop1.eq_def] at h
    exact (Option.some.inj h) ▸ hv
  | cons q rest =>
    rcases hq : q with ⟨core, o, a⟩
    subst hq
    obtain ⟨kw2, h2, hcase⟩ := appendRDLoop1_cons kw core o a rest kw' h
    rcases hcase with rfl | ⟨d, rfl, _, _, habs, _⟩
    · exact appendRDLoop1_pres rest kw2 kw' k v h2 hv
    · refine appendRDLoop1_pres rest _ kw' k v h2 ?_
      rw [kwLookup_kwInsert]
      by_cases he : core.name = k
      · subst he
        rw [(kwMem_false_iff kw core.name).mp habs] at hv
        exact Option.noConfusion hv
      · rw [if_neg he]
        exact hv
termination_by sizeOf l
decreasing_by all_goals
  first
  | (simp_wf
     try subst_vars
     try simp only [Node.mk.sizeOf_spec, NLOpt.some.sizeOf_spec, NodeList.cons.sizeOf_spec]
     omega)
  | simp_wf

/-- The first loop only inserts top-level names. -/
theorem appendRDLoop1_stable (l : NodeList) (kw kw' : Kwargs) (k : String)
    (hk : k ∉ l.names) (h : appendRDLoop1 kw l = Option.some kw') :
    kwLookup kw' k = kwLookup kw k := by
  cases l with
  | nil =>
    rw [appendRDLoop1.eq_def] at h
    exact (Option.some.inj h) ▸ rfl
  | cons q rest =>
    rcases hq : q with ⟨core, o, a⟩
    subst hq
    have hk' : k ∉ rest.names := fun hm => hk (List.mem_cons_of_mem _ hm)
    have hkc : core.name ≠ k := by
      intro he
      exact hk (he ▸ List.mem_cons_self _ _)
    obtain ⟨kw2, h2, hcase⟩ := appendRDLoop1_cons kw core o a rest kw' h
    rcases hcase with rfl | ⟨d, rfl, _⟩
    · exact appendRDLoop1_stable rest kw2 kw' k hk' h2
    · rw [appendRDLoop1_stable rest _ kw' k hk' h2, kwLookup_kwInsert, if_neg hkc]
termination_by sizeOf l
decreasing_by all_goals
  first
  | (simp_wf
     try subst_vars
     try simp only [Node.mk.sizeOf_spec, NLOpt.some.sizeOf_spec, NodeList.cons.sizeOf_spec]
     omega)
  | simp_wf

/-- An absent key whose (possibly several) entries all fail a guard of the
first loop stays absent through the first loop. -/
theorem appendRDLoop1_absent (l : NodeList) (kw kw' : Kwargs) (k : String)
    (hk : kwMem kw k = false)
    (hno : ∀ core o a, Node.mk core o a ∈ l.toList → core.name = k →
      core.default = Option.none ∨ core.type_ = Option.some TYPE_DICT ∨
        core.required ≠ Option.some true)
    (h : appendRDLoop1 kw l = Option.some kw') : kwMem kw' k = false := by
  cases l with
  | nil =>
    rw [appendRDLoop1.eq_def] at h
    exact (Option.some.inj h) ▸ hk
  | cons q rest =>
    rcases hq : q with ⟨core, o, a⟩
    subst hq
    have hmemhead : Node.mk core o a ∈ (NodeList.cons (.mk core o a) rest).toList := by
      rw [NodeList.toList.eq_def]
      exact List.mem_cons_self _ _
    have hno' : ∀ core' o' a', Node.mk core' o' a' ∈ rest.toList → core'.name = k →
        core'.default = Option.none ∨ core'.type_ = Option.some TYPE_DICT ∨
          core'.required ≠ Option.some true := by
      intro core' o' a' hm he
      refine hno core' o' a' ?_ he
      rw [NodeList.toList.eq_def]
      exact List.mem_cons_of_mem _ hm
    obtain ⟨kw2, h2, hcase⟩ := appendRDLoop1_cons kw core o a rest kw' h
    rcases hcase with rfl | ⟨d, rfl, hd, hreq, _, t, ht, hdict⟩
    · exact appendRDLoop1_absent rest kw2 kw' k hk hno' h2
    · have hne : core.name ≠ k := by
        intro he
        rcases hno core o a hmemhead he with hx | hx | hx
        · rw [hd] at hx
          exact Option.noConfusion hx
        · rw [ht] at hx
          exact hdict (Option.some.inj hx)
        · exact hx hreq
      refine appendRDLoop1_absent rest _ kw' k ?_ hno' h2
      rw [kwMem_false_iff] at hk ⊢
      rw [kwLookup_kwInsert, if_neg hne]
      exact hk
termination_by sizeOf l
decreasing_by all_goals
  first
  | (simp_wf
     try subst_vars
     try simp only [Node.mk.sizeOf_spec, NLOpt.some.sizeOf_spec, NodeList.cons.sizeOf_spec]
     omega)
  | simp_wf

/-- When all four guards hold, the first-loop step inserts the default. -/
theorem appendRDLoop1_insert_run (kw : Kwargs) (core : NodeCore) (o a : NLOpt)
    (rest : NodeList) (d : PVal) (t : String)
    (hreq : core.required = Option.some true) (hdef : core.default = Option.some d)
    (hty : core.type_ = Option.some t) (hndict : t ≠ TYPE_DICT)
    (habs : kwMem kw core.name = false) :
    appendRDLoop1 kw (.cons (.mk core o a) rest) =
      appendRDLoop1 (kwInsert kw core.name d) rest := by
  rw [appendRDLoop1.eq_def]
  simp only []
  rw [if_neg (by simp [habs]), if_neg (by simp [hreq]), hdef]
  simp only []
  rw [hty]
  simp only []
  rw [if_neg hndict]

/-- With distinct top-level names, a required, defaulted, non-DICT entry
absent from the dictionary ends bound to its declared default after the first
loop. -/
theorem appendRDLoop1_inserts (l : NodeList) (kw kw' : Kwargs) (core : NodeCore)
    (o a : NLOpt) (d : PVal) (t : String)
    (hd : distinctB l.names = true) (hmem : Node.mk core o a ∈ l.toList)
    (hreq : core.required = Option.some true) (hdef : core.default = Option.some d)
    (hty : core.type_ = Option.some t) (hndict : t ≠ TYPE_DICT)
    (habs : kwMem kw core.name = false)
    (h : appendRDLoop1 kw l = Option.some kw') :
    kwLookup kw' core.name = Option.some d := by
  cases l with
  | nil =>
    rw [NodeList.toList.eq_def] at hmem
    simp at hmem
  | cons q rest =>
    rw [NodeList.toList.eq_def] at hmem
    rcases List.mem_cons.mp hmem with heq | hmr
    · subst heq
      rw [appendRDLoop1_insert_run kw core o a rest d t hreq hdef hty hndict habs] at h
      refine appendRDLoop1_pres rest _ kw' core.name d h ?_
      rw [kwLookup_kwInsert, if_pos rfl]
    · rcases hq : q with ⟨qc, qo, qa⟩
      subst hq
      have hdt := distinctB_cons _ _ (by simpa [NodeList.names, Node.core] using hd)
      have hqne : qc.name ≠ core.name := by
        intro he
        exact hdt.1 (he ▸ mem_toList_names rest _ hmr)
      obtain ⟨kw2, h2, hcase⟩ := appendRDLoop1_cons kw qc qo qa rest kw' h
      rcases hcase with rfl | ⟨d0, rfl, _⟩
      · exact appendRDLoop1_inserts rest kw2 kw' core o a d t hdt.2 hmr hreq hdef hty
          hndict habs h2
      · refine appendRDLoop1_inserts rest _ kw' core o a d t hdt.2 hmr hreq hdef hty
          hndict ?_ h2
        rw [kwMem_false_iff] at habs ⊢
        rw [kwLookup_kwInsert, if_neg hqne]
        exact habs
termination_by sizeOf l
decreasing_by all_goals
  first
  | (simp_wf
     try subst_vars
     try simp only [Node.mk.sizeOf_spec, NLOpt.some.sizeOf_spec, NodeList.cons.sizeOf_spec]
     omega)
  | simp_wf

mutual
/-- The second loop never changes an existing binding. -/
theorem appendRDLoop2_pres (l : NodeList) (kw kw' : Kwargs) (k : String) (v : PVal)
    (h : appendRDLoop2 kw l = Option.some kw') (hv : kwLookup kw k = Option.some v) :
    kwLookup kw' k = Option.some v := by
  rw [appendRDLoop2.eq_def] at h
  cases l with
  | nil => exact (Option.some.inj h) ▸ hv
  | cons q rest =>
    rcases hq : q with ⟨core, o, a⟩
    subst hq
    simp only [] at h
    rcases hs : appendRDStep2 kw core o with _ | kw2 <;> rw [hs] at h
    · exact Option.noConfusion h
    · simp only [] at h
      exact appendRDLoop2_pres rest kw2 kw' k v h
        (appendRDStep2_pres core o kw kw2 k v hs hv)
termination_by sizeOf l
decreasing_by all_goals
  first
  | (simp_wf
     try subst_vars
     try simp only [Node.mk.sizeOf_spec, NLOpt.some.sizeOf_spec, NodeList.cons.sizeOf_spec]
     omega)
  | simp_wf

/-- One second-loop entry never changes an existing binding. -/
theorem appendRDStep2_pres (core : NodeCore) (o : NLOpt) (kw kw' : Kwargs) (k : String)
    (v : PVal) (h : appendRDStep2 kw core o = Option.some kw')
    (hv : kwLookup kw k = Option.some v) : kwLookup kw' k = Option.some v := by
  rw [appendRDStep2.eq_def] at h
  cases o with
  | none => exact (Option.some.inj h) ▸ hv
  | some ol =>
    simp only [] at h
    by_cases hr : core.required = Option.some true
    · rw [if_pos hr] at h
      exact appendRDLoopOpts_pres ol core.name kw kw' k v h hv
    · rw [if_neg hr] at h
      exact (Option.some.inj h) ▸ hv
termination_by sizeOf o
decreasing_by all_goals
  first
  | (simp_wf
     try subst_vars
     try simp only [Node.mk.sizeOf_spec, NLOpt.some.sizeOf_spec, NodeList.cons.sizeOf_spec]
     omega)
  | simp_wf

/-- The option loop of the second pass never changes an existing binding. -/
theorem appendRDLoopOpts_pres (ol : NodeList) (n : String) (kw kw' : Kwargs) (k : String)
    (v : PVal) (h : appendRDLoopOpts kw n ol = Option.some kw')
    (hv : kwLookup kw k = Option.some v) : kwLookup kw' k = Option.some v := by
  rw [appendRDLoopOpts.eq_def] at h
  cases ol with
  | nil => exact (Option.some.inj h) ▸ hv
  | cons q rest =>
    rcases hq : q with ⟨oc, oo, oa⟩
    subst hq
    simp only [] at h
    rcases hs : appendRDOptStep kw n oc oa with _ | kw2 <;> rw [hs] at h
    · exact Option.noConfusion h
    · simp only [] at h
      exact appendRDLoopOpts_pres rest n kw2 kw' k v h
        (appendRDOptStep_pres oc oa n kw kw2 k v hs hv)
termination_by sizeOf ol
decreasing_by all_goals
  first
  | (simp_wf
     try subst_vars
     try simp only [Node.mk.sizeOf_spec, NLOpt.some.sizeOf_spec, NodeList.cons.sizeOf_spec]
     omega)
  | simp_wf

/-- One option of the second pass never changes an existing binding. -/
theorem appendRDOptStep_pres (oc : NodeCore) (oa : NLOpt) (n : String) (kw kw' : Kwargs)
    (k : String) (v : PVal) (h : appendRDOptStep kw n oc oa = Option.some kw')
    (hv : kwLookup kw k = Option.some v) : kwLookup kw' k = Option.some v := by
  rw [appendRDOptStep.eq_def] at h
  rcases hkv : kwLookup kw n with _ | kv <;> rw [hkv] at h
  · exact Option.noConfusion h
  · simp only [] at h
    cases oa with
    | none => exact (Option.some.inj h) ▸ hv
    | some al =>
      simp only [] at h
      by_cases he : PVal.str oc.value = kv
      · rw [if_pos he] at h
        rcases h1 : appendRDLoop1 kw al with _ | kw1 <;> rw [h1] at h
        · exact Option.noConfusion h
        · simp only [] at h
          exact appendRDLoop2_pres al kw1 kw' k v h
            (appendRDLoop1_pres al kw kw1 k v h1 hv)
      · rw [if_neg he] at h
        exact (Option.some.inj h) ▸ hv
termination_by sizeOf oa
decreasing_by all_goals
  first
  | (simp_wf
     try subst_vars
     try simp only [Node.mk.sizeOf_spec, NLOpt.some.sizeOf_spec, NodeList.cons.sizeOf_spec]
     omega)
  | simp_wf
end

mutual
/-- The second loop leaves keys outside the nested names untouched. -/
theorem appendRDLoop2_stable (l : NodeList) (kw kw' : Kwargs) (k : String)
    (hk : k ∉ nestedNames l) (h : appendRDLoop2 kw l = Option.some kw') :
    kwLookup kw' k = kwLookup kw k := by
  rw [appendRDLoop2.eq_def] at h
  cases l with
  | nil => exact (Option.some.inj h) ▸ rfl
  | cons q rest =>
    rcases hq : q with ⟨core, o, a⟩
    subst hq
    simp only [] at h
    rcases hs : appendRDStep2 kw core o with _ | kw2 <;> rw [hs] at h
    · exact Option.noConfusion h
    · simp only [] at h
      have hk1 : k ∉ ardNamesOpts o := by
        intro hm
        refine hk ?_
        rw [nestedNames.eq_def]
        exact List.mem_append.mpr (Or.inl hm)
      have hk2 : k ∉ nestedNames rest := by
        intro hm
        refine hk ?_
        rw [nestedNames.eq_def]
        exact List.mem_append.mpr (Or.inr hm)
      rw [appendRDLoop2_stable rest kw2 kw' k hk2 h,
        appendRDStep2_stable core o kw kw2 k hk1 hs]
termination_by sizeOf l
decreasing_by all_goals
  first
  | (simp_wf
     try subst_vars
     try simp only [Node.mk.sizeOf_spec, NLOpt.some.sizeOf_spec, NodeList.cons.sizeOf_spec]
     omega)
  | simp_wf

/-- One second-loop entry leaves keys outside its option names untouched. -/
theorem appendRDStep2_stable (core : NodeCore) (o : NLOpt) (kw kw' : Kwargs) (k : String)
    (hk : k ∉ ardNamesOpts o) (h : appendRDStep2 kw core o = Option.some kw') :
    kwLookup kw' k = kwLookup kw k := by
  rw [appendRDStep2.eq_def] at h
  cases o with
  | none => exact (Option.some.inj h) ▸ rfl
  | some ol =>
    simp only [] at h
    by_cases hr : core.required = Option.some true
    · rw [if_pos hr] at h
      refine appendRDLoopOpts_stable ol core.name kw kw' k ?_ h
      intro hm
      refine hk ?_
      rw [ardNamesOpts.eq_def]
      exact hm
    · rw [if_neg hr] at h
      exact (Option.some.inj h) ▸ rfl
termination_by sizeOf o
decreasing_by all_goals
  first
  | (simp_wf
     try subst_vars
     try simp only [Node.mk.sizeOf_spec, NLOpt.some.sizeOf_spec, NodeList.cons.sizeOf_spec]
     omega)
  | simp_wf

/-- The option loop leaves keys outside the option names untouched. -/
theorem appendRDLoopOpts_stable (ol : NodeList) (n : String) (kw kw' : Kwargs)
    (k : String) (hk : k ∉ ardNamesOptList ol)
    (h : appendRDLoopOpts kw n ol = Option.some kw') :
    kwLookup kw' k = kwLookup kw k := by
  rw [appendRDLoopOpts.eq_def] at h
  cases ol with
  | nil => exact (Option.some.inj h) ▸ rfl
  | cons q rest =>
    rcases hq : q with ⟨oc, oo, oa⟩
    subst hq
    simp only [] at h
    rcases hs : appendRDOptStep kw n oc oa with _ | kw2 <;> rw [hs] at h
    · exact Option.noConfusion h
    · simp only [] at h
      have hk1 : k ∉ ardNamesAttrs oa := by
        intro hm
        refine hk ?_
        rw [ardNamesOptList.eq_def]
        exact List.mem_append.mpr (Or.inl hm)
      have hk2 : k ∉ ardNamesOptList rest := by
        intro hm
        refine hk ?_
        rw [ardNamesOptList.eq_def]
        exact List.mem_append.mpr (Or.inr hm)
      rw [appendRDLoopOpts_stable rest n kw2 kw' k hk2 h,
        appendRDOptStep_stable oc oa n kw kw2 k hk1 hs]
termination_by sizeOf ol
decreasing_by all_goals
  first
  | (simp_wf
     try subst_vars
     try simp only [Node.mk.sizeOf_spec, NLOpt.some.sizeOf_spec, NodeList.cons.sizeOf_spec]
     omega)
  | simp_wf

/-- One option of the second pass leaves keys outside its attribute names
untouched. -/
theorem appendRDOptStep_stable (oc : NodeCore) (oa : NLOpt) (n : String)
    (kw kw' : Kwargs) (k : String) (hk : k ∉ ardNamesAttrs oa)
    (h : appendRDOptStep kw n oc oa = Option.some kw') :
    kwLookup kw' k = kwLookup kw k := by
  rw [appendRDOptStep.eq_def] at h
  rcases hkv : kwLookup kw n with _ | kv <;> rw [hkv] at h
  · exact Option.noConfusion h
  · simp only [] at h
    cases oa with
    | none => exact (Option.some.inj h) ▸ rfl
    | some al =>
      simp only [] at h
      have hka : k ∉ ardNames al := by
        intro hm
        refine hk ?_
        rw [ardNamesAttrs.eq_def]
        exact hm
      by_cases he : PVal.str oc.value = kv
      · rw [if_pos he] at h
        rcases h1 : appendRDLoop1 kw al with _ | kw1 <;> rw [h1] at h
        · exact Option.noConfusion h
        · simp only [] at h
          rw [appendRDLoop2_stable al kw1 kw' k
              (fun hm => hka (nestedNames_sub_ardNames al k hm)) h,
            appendRDLoop1_stable al kw kw1 k
              (fun hm => hka (names_sub_ardNames al k hm)) h1]
      · rw [if_neg he] at h
        exact (Option.some.inj h) ▸ rfl
termination_by sizeOf oa
decreasing_by all_goals
  first
  | (simp_wf
     try subst_vars
     try simp only [Node.mk.sizeOf_spec, NLOpt.some.sizeOf_spec, NodeList.cons.sizeOf_spec]
     omega)
  | simp_wf
end

/-- If a required node with a non-empty option list has no value in the
dictionary when the second loop reaches it (and its name cannot be introduced
by earlier nested inserts), the unguarded `kwargs[entry[KEY_NAME]]` read makes
the whole second loop fail. -/
theorem appendRDLoop2_fails (l : NodeList) (kw : Kwargs) (core : NodeCore)
    (oc : NodeCore) (oo oa : NLOpt) (orest : NodeList) (a : NLOpt)
    (hmem : Node.mk core (NLOpt.some (.cons (.mk oc oo oa) orest)) a ∈ l.toList)
    (hreq : core.required = Option.some true)
    (habs : kwMem kw core.name = false)
    (hnest : core.name ∉ nestedNames l) :
    appendRDLoop2 kw l = Option.none := by
  rw [NodeList.toList.eq_def] at hmem
  rw [appendRDLoop2.eq_def]
  cases l with
  | nil => simp at hmem
  | cons q rest =>
    rcases List.mem_cons.mp hmem with heq | hmr
    · subst heq
      simp only []
      rw [appendRDStep2.eq_def]
      simp only []
      rw [if_pos hreq, appendRDLoopOpts.eq_def]
      simp only []
      rw [appendRDOptStep.eq_def, (kwMem_false_iff kw core.name).mp habs]
    · rcases hq : q with ⟨qc, qo, qa⟩
      subst hq
      simp only []
      rcases hs : appendRDStep2 kw qc qo with _ | kw2
      · rfl
      · simp only []
        have hk1 : core.name ∉ ardNamesOpts qo := by
          intro hm
          refine hnest ?_
          rw [nestedNames.eq_def]
          exact List.mem_append.mpr (Or.inl hm)
        have hk2 : core.name ∉ nestedNames rest := by
          intro hm
          refine hnest ?_
          rw [nestedNames.eq_def]
          exact List.mem_append.mpr (Or.inr hm)
        have habs2 : kwMem kw2 core.name = false := by
          rw [kwMem_false_iff] at habs ⊢
          rw [appendRDStep2_stable qc qo kw kw2 core.name hk1 hs]
          exact habs
        exact appendRDLoop2_fails rest kw2 core oc oo oa orest a hmr hreq habs2 hk2
termination_by sizeOf l
decreasing_by all_goals
  first
  | (simp_wf
     try subst_vars
     try simp only [Node.mk.sizeOf_spec, NLOpt.some.sizeOf_spec, NodeList.cons.sizeOf_spec]
     omega)
  | simp_wf

/-! ## When the caller's tree survives a transform unchanged -/

mutual
/-- Trees without any `options` key at any level. -/
def optionFree : NodeList → Bool
  | .nil => true
  | .cons (.mk _ .none attrs) rest => optionFreeAttrs attrs && optionFree rest
  | .cons (.mk _ (.some _) _) _ => false

/-- `optionFree` through an `attributes` key. -/
def optionFreeAttrs : NLOpt → Bool
  | .none => true
  | .some al => optionFree al
end

mutual
/-- `fill_defaults` leaves the caller's tree unchanged when the tree has no
option lists anywhere (the only caller-visible writes go through shared
option lists). -/
theorem fillDefaultsEffect_optionFree (l : NodeList) (data : Kwargs) (fub : Bool)
    (h : optionFree l = true) : fillDefaultsEffect l data fub = Option.some l := by
  rw [optionFree.eq_def] at h
  rw [fillDefaultsEffect.eq_def]
  cases l with
  | nil => rfl
  | cons p rest =>
    rcases hp : p with ⟨core, opts, attrs⟩
    subst hp
    cases opts with
    | some ol => exact Bool.noConfusion h
    | none =>
      simp only [Bool.and_eq_true] at h
      simp only []
      rw [fillDefaultsEffectOne.eq_def]
      simp only []
      rw [fillDefaultsEffAttrs_optionFree attrs data fub h.1]
      simp only []
      rw [fillDefaultsOpts.eq_def]
      simp only []
      rw [fillDefaultsEffect_optionFree rest data fub h.2]
termination_by sizeOf l
decreasing_by all_goals
  first
  | (simp_wf
     try subst_vars
     try simp only [Node.mk.sizeOf_spec, NLOpt.some.sizeOf_spec, NodeList.cons.sizeOf_spec]
     omega)
  | simp_wf

/-- `fillDefaultsEffect_optionFree` through an `attributes` key. -/
theorem fillDefaultsEffAttrs_optionFree (attrs : NLOpt) (data : Kwargs) (fub : Bool)
    (h : optionFreeAttrs attrs = true) :
    fillDefaultsEffAttrs data fub attrs = Option.some attrs := by
  rw [optionFreeAttrs.eq_def] at h
  rw [fillDefaultsEffAttrs.eq_def]
  cases attrs with
  | none => rfl
  | some al =>
    simp only []
    rw [fillDefaultsEffect_optionFree al data fub h]
termination_by sizeOf attrs
decreasing_by all_goals
  first
  | (simp_wf
     try subst_vars
     try simp only [Node.mk.sizeOf_spec, NLOpt.some.sizeOf_spec, NodeList.cons.sizeOf_spec]
     omega)
  | simp_wf
end

/-- With no selection and no prefix, the in-place node mutation of
`select_simulator_inputs` is the identity. -/
theorem selCoreMut_empty (core : NodeCore) : selCoreMut [] "" core = core := by
  rcases core with ⟨nm, ty, lbl, dflt, req, val, mn, mx, et, qu, uh, cond, dt, wa, fi, dy, fl⟩
  simp only [selCoreMut, selLookup]
  cases lbl <;> rfl

/-- With an empty selection dictionary and empty prefix,
`select_simulator_inputs` leaves the caller's tree unchanged. -/
theorem selectSimEffectList_empty (l : NodeList) :
    selectSimEffectList [] "" l = l := by
  rw [selectSimEffectList.eq_def]
  cases l with
  | nil => rfl
  | cons p rest =>
    rcases hp : p with ⟨core, opts, attrs⟩
    subst hp
    simp only [selLookup, selCoreMut_empty]
    rw [selectSimEffectList_empty rest]
    cases opts <;> rfl
termination_by sizeOf l
decreasing_by all_goals
  first
  | (simp_wf
     try subst_vars
     try simp only [Node.mk.sizeOf_spec, NLOpt.some.sizeOf_spec, NodeList.cons.sizeOf_spec]
     omega)
  | simp_wf

/-! ## Single-field behaviour of `convert_ui_inputs` -/

/-- For a single flat row whose name is free of the `_parameters_` marker and
whose submitted value does not trip the required-but-empty check, the whole
conversion reduces to the type dispatch on the submitted value (with the
`try`-block exception wrapping of the loop). -/
theorem convert_single_step (ext : Ext) (core : NodeCore) (o a : NLOpt) (v : PVal)
    (rowType : String) (hty : core.type_ = Option.some rowType)
    (hnp : pyContains core.name KEYWORD_PARAMS = false)
    (hndict : rowType ≠ TYPE_DICT)
    (hreq : ¬(core.required = Option.some true ∧ v = PVal.str "")) :
    convertUiInputs ext (.cons (.mk core o a) .nil) [(core.name, v)] true =
      (match processRowDispatch ext rowType core v { kwargs := [(core.name, v)] } with
       | .ok st' => .ok st'
       | .error e =>
         if pyStartswith e "InvalidParameterException" then Except.error e
         else Except.error ("InvalidParameterException: Invalid or missing value in field "
           ++ core.label.getD "" ++ " [" ++ core.name ++ "]")) := by
  rw [convertUiInputs]
  rw [convertLoop.eq_def]
  simp only [Node.core]
  rw [processRow]
  rw [hty]
  simp only []
  have hlook : kwLookup [(core.name, v)] core.name = Option.some v := by
    simp [kwLookup]
  have hcond : (true && decide (core.required = Option.some true) &&
      decide (kwLookup ({ kwargs := [(core.name, v)] } : ConvSt).kwargs core.name
        = Option.some (PVal.str ""))) = false := by
    by_cases hr : core.required = Option.some true
    · have hv : ¬ (v = PVal.str "") := fun hv => hreq ⟨hr, hv⟩
      simp [hr, hlook, hv]
    · simp [hr]
  rw [if_neg (by rw [hcond]; exact Bool.false_ne_true)]
  rw [processRowBody]
  rw [if_neg hndict]
  rw [if_neg (by simp : ¬(List.contains ([] : List String) core.name = true))]
  have hmem : kwMem ({ kwargs := [(core.name, v)] } : ConvSt).kwargs core.name = true := by
    simp [kwMem, hlook]
  rw [if_neg (by simp [hmem] : ¬(¬ kwMem ({ kwargs := [(core.name, v)] } : ConvSt).kwargs
    core.name = true))]
  rw [isParentNotSubmitted]
  rw [if_neg (by simp [hnp] : ¬(pyContains core.name KEYWORD_PARAMS = true))]
  simp only [hlook]
  rcases hdp : processRowDispatch ext rowType core v { kwargs := [(core.name, v)] }
    with e | st'
  · simp only []
    by_cases hc : pyStartswith e "InvalidParameterException" = true
    · rw [if_pos hc]
    · rw [if_neg hc]
  · simp only []
    rw [convertLoop.eq_def]

/-- INT rows map the sentinel strings to an explicit `None`. -/
theorem convert_int_sentinel (ext : Ext) (core : NodeCore) (s : String)
    (hty : core.type_ = Option.some TYPE_INT)
    (hnp : pyContains core.name KEYWORD_PARAMS = false)
    (hs : s = "" ∨ s = "None")
    (hreq : ¬(core.required = Option.some true ∧ s = "")) :
    (convertUiInputs ext (.cons (.mk core .none .none) .nil)
      [(core.name, PVal.str s)] true).map ConvSt.kwa
      = .ok [(core.name, OVal.none)] := by
  rw [convert_single_step ext core .none .none (PVal.str s) TYPE_INT hty hnp
    (by decide) (fun hx => hreq ⟨hx.1, PVal.str.inj hx.2⟩)]
  rw [processRowDispatch]
  simp [TYPE_INT, TYPE_ARRAY, TYPE_LIST, TYPE_BOOL, TYPE_DICT, hs, kwaInsert, Except.map]

/-- FLOAT rows map the sentinel strings to an explicit `None`. -/
theorem convert_float_sentinel (ext : Ext) (core : NodeCore) (s : String)
    (hty : core.type_ = Option.some TYPE_FLOAT)
    (hnp : pyContains core.name KEYWORD_PARAMS = false)
    (hs : s = "" ∨ s = "None")
    (hreq : ¬(core.required = Option.some true ∧ s = "")) :
    (convertUiInputs ext (.cons (.mk core .none .none) .nil)
      [(core.name, PVal.str s)] true).map ConvSt.kwa
      = .ok [(core.name, OVal.none)] := by
  rw [convert_single_step ext core .none .none (PVal.str s) TYPE_FLOAT hty hnp
    (by decide) (fun hx => hreq ⟨hx.1, PVal.str.inj hx.2⟩)]
  rw [processRowDispatch]
  simp [TYPE_FLOAT, TYPE_ARRAY, TYPE_LIST, TYPE_BOOL, TYPE_INT, TYPE_DICT, hs, kwaInsert,
    Except.map]

/-- BOOL rows are coerced by Python truthiness of the submitted string: the
empty string gives `False` and any other string — including `"None"` — gives
`True`; a BOOL field never yields an explicit `None`. -/
theorem convert_bool_truthiness (ext : Ext) (core : NodeCore) (s : String)
    (hty : core.type_ = Option.some TYPE_BOOL)
    (hnp : pyContains core.name KEYWORD_PARAMS = false)
    (hreq : ¬(core.required = Option.some true ∧ s = "")) :
    (convertUiInputs ext (.cons (.mk core .none .none) .nil)
      [(core.name, PVal.str s)] true).map ConvSt.kwa
      = .ok [(core.name, OVal.b (PVal.str s).pyBool)] := by
  rw [convert_single_step ext core .none .none (PVal.str s) TYPE_BOOL hty hnp
    (by decide) (fun hx => hreq ⟨hx.1, PVal.str.inj hx.2⟩)]
  rw [processRowDispatch]
  simp [TYPE_BOOL, TYPE_ARRAY, TYPE_LIST, TYPE_DICT, kwaInsert, Except.map]

/-- An INT row with a non-numeric, non-sentinel string raises the wrapped
`InvalidParameterException`. -/
theorem convert_int_garbage (ext : Ext) (core : NodeCore) (s : String)
    (hty : core.type_ = Option.some TYPE_INT)
    (hnp : pyContains core.name KEYWORD_PARAMS = false)
    (hs : ¬(s = "" ∨ s = "None"))
    (hparse : pyParseInt s = Option.none)
    (hreq : ¬(core.required = Option.some true ∧ s = "")) :
    convertUiInputs ext (.cons (.mk core .none .none) .nil)
      [(core.name, PVal.str s)] true
      = .error ("InvalidParameterException: Invalid or missing value in field "
          ++ core.label.getD "" ++ " [" ++ core.name ++ "]") := by
  rw [convert_single_step ext core .none .none (PVal.str s) TYPE_INT hty hnp
    (by decide) (fun hx => hreq ⟨hx.1, PVal.str.inj hx.2⟩)]
  rw [processRowDispatch]
  simp only [TYPE_INT, TYPE_ARRAY, TYPE_LIST, TYPE_BOOL, TYPE_DICT]
  simp [hs, hparse]
  intro hc
  exact absurd hc (by decide)

/-- An INT row with a parsable value always converts successfully to that
value, whether or not declared min/max bounds are present (and violated):
range validation only contributes warnings. -/
theorem convert_int_ranged (ext : Ext) (core : NodeCore) (s : String) (n : Int)
    (hty : core.type_ = Option.some TYPE_INT)
    (hnp : pyContains core.name KEYWORD_PARAMS = false)
    (hs : ¬(s = "" ∨ s = "None"))
    (hparse : pyParseInt s = Option.some n)
    (hreq : ¬(core.required = Option.some true ∧ s = "")) :
    (convertUiInputs ext (.cons (.mk core .none .none) .nil)
      [(core.name, PVal.str s)] true).map ConvSt.kwa
      = .ok [(core.name, OVal.i n)] := by
  rw [convert_single_step ext core .none .none (PVal.str s) TYPE_INT hty hnp
    (by decide) (fun hx => hreq ⟨hx.1, PVal.str.inj hx.2⟩)]
  rw [processRowDispatch]
  simp only [TYPE_INT, TYPE_ARRAY, TYPE_LIST, TYPE_BOOL, TYPE_DICT]
  simp [hs, hparse, kwaInsert, Except.map]
  by_cases hb : (core.minValue.isSome = true ∧ core.maxValue.isSome = true)
  · simp [hb]
  · simp [hb]

/-! ## Concrete scenarios of the claims -/

/-- An 'external collaborators' stub whose store holds nothing; the primitive
branches of `convert_ui_inputs` never consult it. -/
def extStub : Ext where
  loadEntity := fun _ _ _ => .ok (OVal.obj "entity")
  jsonLoads := fun s => .ok (OVal.obj ("json:" ++ s))
  computeEquation := fun _ => OVal.none
  readFile := fun _ => Option.none
  getClassInstance := fun s => Option.some s
  getValuesOfDatatype := fun _ _ _ _ => ([], 0)
  displayNameOf := fun _ _ => Option.none
  getCategoryById := fun _ => { display := true, rawinput := false }
  getFiltersForType := fun s => s
  dateToString := fun s => s

/-- A store row with gid `g<i>`. -/
def mkRow (i : Nat) : DRow := { id := (i : Int), gid := "g" ++ toString i }

/-- A store that reports 51 matching entities and returns the 50-row capped
page, under the given category. -/
def ext51 (cat : Category) : Ext where
  loadEntity := fun _ _ _ => .ok (OVal.obj "entity")
  jsonLoads := fun s => .ok (OVal.obj s)
  computeEquation := fun _ => OVal.none
  readFile := fun _ => Option.none
  getClassInstance := fun s => Option.some s
  getValuesOfDatatype := fun _ _ _ _ => ((List.range 50).map mkRow, 51)
  displayNameOf := fun _ _ => Option.none
  getCategoryById := fun _ => cat
  getFiltersForType := fun s => s
  dateToString := fun s => s

/-- A store that reports exactly 2 matching entities. -/
def ext2 (cat : Category) : Ext where
  loadEntity := fun _ _ _ => .ok (OVal.obj "entity")
  jsonLoads := fun s => .ok (OVal.obj s)
  computeEquation := fun _ => OVal.none
  readFile := fun _ => Option.none
  getClassInstance := fun s => Option.some s
  getValuesOfDatatype := fun _ _ _ _ => ([mkRow 0, mkRow 1], 2)
  displayNameOf := fun _ _ => Option.none
  getCategoryById := fun _ => cat
  getFiltersForType := fun s => s
  dateToString := fun s => s

/-- A persisted-datatype node for the option-materialization scenarios. -/
def dtNode : Node := .mk
  { name := "surf", type_ := Option.some "tvb.datatypes.surfaces.Surface",
    label := Option.some "S" } .none .none

/-- The number of options of the first node of a materialized tree. -/
def optLen (r : Option NodeList) : Option Nat :=
  match r with
  | Option.some (.cons (.mk _ (.some ol) _) _) => Option.some ol.length
  | _ => Option.none

/-- The warning field of the first node of a materialized tree. -/
def optWarn (r : Option NodeList) : Option (Option String) :=
  match r with
  | Option.some (.cons (.mk c _ _) _) => Option.some c.warning
  | _ => Option.none

/-- DICT-typed schema field `weights` with float elements. -/
def wRow : Node := .mk
  { name := "weights", type_ := Option.some TYPE_DICT,
    elementType := Option.some "float", label := Option.some "W" } .none .none

/-- A flat row whose name is one of the dict submission keys. -/
def waRow : Node := .mk
  { name := "weights_parameters_a", type_ := Option.some TYPE_STR } .none .none

/-- A second flat row whose name is the other dict submission key. -/
def wbRow : Node := .mk
  { name := "weights_parameters_b", type_ := Option.some TYPE_INT } .none .none

/-- An INT row with declared bounds 0..10. -/
def nRowR : Node := .mk
  { name := "n", type_ := Option.some TYPE_INT, label := Option.some "N",
    minValue := Option.some 0, maxValue := Option.some 10 } .none .none

/-- A FLOAT row with declared bounds 0..10. -/
def fRowR : Node := .mk
  { name := "f", type_ := Option.some TYPE_FLOAT, label := Option.some "F",
    minValue := Option.some 0, maxValue := Option.some 10 } .none .none

/-- A manually-quantified ARRAY row with declared bounds 0..10. -/
def aRow : Node := .mk
  { name := "ar", type_ := Option.some TYPE_ARRAY, label := Option.some "A",
    quantifier := Option.some QUANTIFIER_MANUAL,
    minValue := Option.some 0, maxValue := Option.some 10 } .none .none

/-- Nested attribute `a` of the `linear` coupling option. -/
def aN : Node := .mk
  { name := "a", type_ := Option.some TYPE_FLOAT, label := Option.some "la" } .none .none

/-- Nested attribute `b` of the `linear` coupling option. -/
def bN : Node := .mk
  { name := "b", type_ := Option.some TYPE_FLOAT, label := Option.some "lb" } .none .none

/-- The `coupling` select field with options `linear` (carrying `[a, b]`) and
`sigmoidal`. -/
def couplingN : Node := .mk
  { name := "coupling", type_ := Option.some TYPE_SELECT, label := Option.some "lc" }
  (.some (.cons (.mk { name := "Linear", value := "linear" } .none
      (.some (.cons aN (.cons bN .nil))))
    (.cons (.mk { name := "Sigmoidal", value := "sigmoidal" } .none .none) .nil))) .none

/-- Selection: `coupling` unchecked with saved value `linear`; `a` and `b`
checked. -/
def selC : Sel :=
  [("coupling", (false, PVal.str "linear")), ("a", (true, PVal.str "va")),
   ("b", (true, PVal.str "vb"))]

/-! ## The claims -/

/-- C1 (amended): for every well-formed input tree — every node typed, names
underscore-free and distinct from the `option` marker word, option values
underscore-free and pairwise distinct, sibling names pairwise distinct —
`flatten` with no initial prefix produces pairwise-distinct flattened
names. -/
theorem claim_C1 (l : NodeList) (h : wellFormedTree l = true) :
    ((flatten l Option.none).names).Nodup :=
  flatten_names_nodup l h

/-- The C1 counterexample tree: a typed top-level node `a` whose selected
option carries an untyped nested attribute also named `a`.  Names are unique
within every sibling scope, yet `flatten` emits the flat name `a` twice
(untyped nodes are never renamed). -/
def cexC1 : NodeList := .cons
  (.mk { name := "a", type_ := Option.some TYPE_SELECT }
    (.some (.cons
      (.mk { name := "O", value := "v" } .none
        (.some (.cons (.mk { name := "a" } .none .none) .nil)))
      .nil))
    .none)
  .nil

/-- C1 counterexample: sibling-scope uniqueness alone does not make the
flattened names distinct. -/
theorem claim_C1_counterexample :
    (flatten cexC1 Option.none).names = ["a", "a"] ∧
    ¬ ((flatten cexC1 Option.none).names).Nodup ∧
    distinctB cexC1.names = true := by decide

/-- A small well-formed tree exercising options, option-gated attributes and
a second top-level field. -/
def wfExTree : NodeList := .cons
  (.mk { name := "model", type_ := Option.some TYPE_SELECT }
    (.some (.cons
      (.mk { name := "Gen", value := "gen", type_ := Option.some TYPE_STR } .none
        (.some (.cons (.mk { name := "rate", type_ := Option.some TYPE_FLOAT } .none .none)
          .nil)))
      .nil))
    .none)
  (.cons (.mk { name := "noise", type_ := Option.some TYPE_FLOAT } .none .none) .nil)

/-- C1 witness: the amended theorem applied to a concrete well-formed tree. -/
theorem claim_C1_witness :
    wellFormedTree wfExTree = true ∧ ((flatten wfExTree Option.none).names).Nodup :=
  ⟨by decide, claim_C1 wfExTree (by decide)⟩

/-- C2 (amended): neither transform is copy-on-write in general, but
`fill_defaults` leaves a tree without option lists unchanged in the caller,
and `select_simulator_inputs` with an empty selection dictionary and empty
prefix leaves the caller's tree unchanged. -/
theorem claim_C2 :
    (∀ (l : NodeList) (data : Kwargs) (fub : Bool), optionFree l = true →
      fillDefaultsEffect l data fub = Option.some l) ∧
    ∀ (l : NodeList), selectSimEffectList [] "" l = l :=
  ⟨fun l data fub h => fillDefaultsEffect_optionFree l data fub h,
   fun l => selectSimEffectList_empty l⟩

/-- A one-field select tree whose option entry the caller shares. -/
def c2selTree : NodeList := .cons
  (.mk { name := "x", type_ := Option.some TYPE_SELECT }
    (.some (.cons (.mk { name := "o", value := "v" } .none .none) .nil)) .none)
  .nil

/-- A labelled field for the `select_simulator_inputs` mutation. -/
def c2xN : Node := .mk { name := "x", label := Option.some "lx" } .none .none

/-- C2 counterexample: `fill_defaults` overwrites the selected entry of the
caller's shared option list, and `select_simulator_inputs` mutates a checked
node's dictionary in place. -/
theorem claim_C2_counterexample :
    fillDefaultsEffect c2selTree [("x", PVal.str "v"), ("o", PVal.str "nd")] false
      ≠ Option.some c2selTree ∧
    selectSimEffectList [("x", (true, PVal.str "v"))] "" (.cons c2xN .nil)
      ≠ .cons c2xN .nil := by decide

/-- An option-free two-level tree. -/
def c2wTree : NodeList := .cons
  (.mk { name := "x", type_ := Option.some TYPE_INT } .none
    (.some (.cons (.mk { name := "y", type_ := Option.some TYPE_FLOAT } .none .none) .nil)))
  .nil

/-- C2 witness: the amended theorem applied to a concrete option-free tree. -/
theorem claim_C2_witness :
    optionFree c2wTree = true ∧
    fillDefaultsEffect c2wTree [("x", PVal.str "3")] false = Option.some c2wTree ∧
    selectSimEffectList [] "" c2wTree = c2wTree :=
  ⟨by decide, claim_C2.1 c2wTree [("x", PVal.str "3")] false (by decide),
    claim_C2.2 c2wTree⟩

/-- C3 (amended): INT and FLOAT fields map the sentinel strings `""` and
`"None"` to an explicit `None`, and a non-numeric non-sentinel INT string
raises `InvalidParameter`; BOOL fields follow Python truthiness instead —
`""` gives `False`, any other string (including `"None"`) gives `True`,
never `None`. -/
theorem claim_C3 :
    (∀ (ext : Ext) (core : NodeCore) (s : String),
      core.type_ = Option.some TYPE_INT →
      pyContains core.name KEYWORD_PARAMS = false →
      (s = "" ∨ s = "None") →
      ¬(core.required = Option.some true ∧ s = "") →
      (convertUiInputs ext (.cons (.mk core .none .none) .nil)
        [(core.name, PVal.str s)] true).map ConvSt.kwa
        = .ok [(core.name, OVal.none)]) ∧
    (∀ (ext : Ext) (core : NodeCore) (s : String),
      core.type_ = Option.some TYPE_FLOAT →
      pyContains core.name KEYWORD_PARAMS = false →
      (s = "" ∨ s = "None") →
      ¬(core.required = Option.some true ∧ s = "") →
      (convertUiInputs ext (.cons (.mk core .none .none) .nil)
        [(core.name, PVal.str s)] true).map ConvSt.kwa
        = .ok [(core.name, OVal.none)]) ∧
    (∀ (ext : Ext) (core : NodeCore) (s : String),
      core.type_ = Option.some TYPE_BOOL →
      pyContains core.name KEYWORD_PARAMS = false →
      ¬(core.required = Option.some true ∧ s = "") →
      (convertUiInputs ext (.cons (.mk core .none .none) .nil)
        [(core.name, PVal.str s)] true).map ConvSt.kwa
        = .ok [(core.name, OVal.b (PVal.str s).pyBool)]) ∧
    (∀ (ext : Ext) (core : NodeCore) (s : String),
      core.type_ = Option.some TYPE_INT →
      pyContains core.name KEYWORD_PARAMS = false →
      ¬(s = "" ∨ s = "None") →
      pyParseInt s = Option.none →
      ¬(core.required = Option.some true ∧ s = "") →
      convertUiInputs ext (.cons (.mk core .none .none) .nil)
        [(core.name, PVal.str s)] true
        = .error ("InvalidParameterException: Invalid or missing value in field "
            ++ core.label.getD "" ++ " [" ++ core.name ++ "]")) :=
  ⟨convert_int_sentinel, convert_float_sentinel, convert_bool_truthiness,
   convert_int_garbage⟩

/-- A BOOL row. -/
def c3bRow : Node := .mk { name := "bb", type_ := Option.some TYPE_BOOL } .none .none

/-- C3 counterexample: a BOOL field with submitted value `"None"` yields
`True`, not the explicit absence the sentinel rule would give. -/
theorem claim_C3_counterexample :
    (convertUiInputs extStub (.cons c3bRow .nil) [("bb", PVal.str "None")] true).map
      ConvSt.kwa = .ok [("bb", OVal.b true)] ∧
    (convertUiInputs extStub (.cons c3bRow .nil) [("bb", PVal.str "")] true).map
      ConvSt.kwa = .ok [("bb", OVal.b false)] ∧
    OVal.b true ≠ OVal.none := by decide

/-- The INT row of the C3 witness. -/
def c3nCore : NodeCore :=
  { name := "n", type_ := Option.some TYPE_INT, label := Option.some "N" }

/-- C3 witness: the INT sentinel clause applied to a concrete row and the
submitted string `"None"`. -/
theorem claim_C3_witness :
    (convertUiInputs extStub (.cons (.mk c3nCore .none .none) .nil)
      [(c3nCore.name, PVal.str "None")] true).map ConvSt.kwa
      = .ok [(c3nCore.name, OVal.none)] :=
  claim_C3.1 extStub c3nCore "None" rfl (by decide) (Or.inr rfl) (by decide)

/-- C4 (amended): after a successful `append_required_defaults` on a tree
whose reachable names are pairwise distinct, (a) every pre-existing binding
is unchanged, (b) every required, defaulted, non-DICT top-level entry absent
beforehand is bound to its declared default, and (c) a DICT-typed top-level
entry absent beforehand is still absent. -/
theorem claim_C4 (l : NodeList) (kwargs kw' : Kwargs)
    (hdist : distinctB (ardNames l) = true)
    (hrun : appendRequiredDefaults kwargs (NLOpt.some l) = Option.some kw') :
    (∀ k v, kwLookup kwargs k = Option.some v → kwLookup kw' k = Option.some v) ∧
    (∀ core o a d t, Node.mk core o a ∈ l.toList →
      core.required = Option.some true → core.default = Option.some d →
      core.type_ = Option.some t → t ≠ TYPE_DICT → kwMem kwargs core.name = false →
      kwLookup kw' core.name = Option.some d) ∧
    (∀ core o a, Node.mk core o a ∈ l.toList → core.type_ = Option.some TYPE_DICT →
      kwMem kwargs core.name = false → kwMem kw' core.name = false) := by
  rw [appendRequiredDefaults] at hrun
  rw [appendRDMain] at hrun
  rcases h1 : appendRDLoop1 kwargs l with _ | kw1 <;> rw [h1] at hrun
  · exact Option.noConfusion hrun
  · simp only [] at hrun
    refine ⟨fun k v hv => appendRDLoop2_pres l kw1 kw' k v hrun
      (appendRDLoop1_pres l kwargs kw1 k v h1 hv), ?_, ?_⟩
    · intro core o a d t hmem hreq hdef hty hnd habs
      exact appendRDLoop2_pres l kw1 kw' core.name d hrun
        (appendRDLoop1_inserts l kwargs kw1 core o a d t
          (ardNames_distinct_names l hdist) hmem hreq hdef hty hnd habs h1)
    · intro core o a hmem hty habs
      have hd1 := ardNames_distinct_names l hdist
      have hno : ∀ core' o' a', Node.mk core' o' a' ∈ l.toList →
          core'.name = core.name →
          core'.default = Option.none ∨ core'.type_ = Option.some TYPE_DICT ∨
            core'.required ≠ Option.some true := by
        intro core' o' a' hm he
        have huq := unique_by_name l hd1 (Node.mk core' o' a') (Node.mk core o a) hm hmem he
        obtain ⟨hc, _, _⟩ := Node.mk.inj huq
        subst hc
        exact Or.inr (Or.inl hty)
      have habs1 := appendRDLoop1_absent l kwargs kw1 core.name habs hno h1
      have hnn := top_name_not_nested l hdist (Node.mk core o a) hmem
      rw [kwMem_false_iff] at habs1 ⊢
      rw [appendRDLoop2_stable l kw1 kw' core.name hnn hrun]
      exact habs1

/-- The first of two duplicate-named required entries. -/
def cexC4a : NodeCore :=
  { name := "x", type_ := Option.some TYPE_INT, required := Option.some true,
    default := Option.some (PVal.str "1") }

/-- The second of two duplicate-named required entries, with its own
default. -/
def cexC4b : NodeCore :=
  { name := "x", type_ := Option.some TYPE_INT, required := Option.some true,
    default := Option.some (PVal.str "2") }

/-- A tree of two required, defaulted, non-DICT top-level entries sharing the
name `x` but declaring different defaults. -/
def cexC4 : NodeList := .cons (.mk cexC4a .none .none) (.cons (.mk cexC4b .none .none) .nil)

/-- C4 counterexample: with two required, defaulted, non-DICT siblings both
named `x` and absent beforehand, the second entry ends mapped to the FIRST
entry's default, not its own — the claim fails without a distinct-names
assumption. -/
theorem claim_C4_counterexample :
    appendRequiredDefaults [] (NLOpt.some cexC4) = Option.some [("x", PVal.str "1")] ∧
    cexC4b.default = Option.some (PVal.str "2") ∧
    PVal.str "1" ≠ PVal.str "2" := by decide

/-- The required INT entry of the C4 witness tree. -/
def c4wX : NodeCore :=
  { name := "x", type_ := Option.some TYPE_INT, required := Option.some true,
    default := Option.some (PVal.str "3") }

/-- The required DICT entry of the C4 witness tree. -/
def c4wD : NodeCore :=
  { name := "d", type_ := Option.some TYPE_DICT, required := Option.some true,
    default := Option.some (PVal.str "on") }

/-- The C4 witness tree. -/
def c4wTree : NodeList := .cons (.mk c4wX .none .none) (.cons (.mk c4wD .none .none) .nil)

/-- C4 witness: the amended theorem applied to a concrete run — the existing
binding survives, the INT default is injected, the DICT entry stays absent. -/
theorem claim_C4_witness :
    kwLookup [("e", PVal.str "1"), ("x", PVal.str "3")] "e" = Option.some (PVal.str "1") ∧
    kwLookup [("e", PVal.str "1"), ("x", PVal.str "3")] c4wX.name
      = Option.some (PVal.str "3") ∧
    kwMem [("e", PVal.str "1"), ("x", PVal.str "3")] c4wD.name = false := by
  have h := claim_C4 c4wTree [("e", PVal.str "1")] [("e", PVal.str "1"), ("x", PVal.str "3")]
    (by decide) (by decide)
  refine ⟨h.1 "e" (PVal.str "1") (by decide), ?_, ?_⟩
  · exact h.2.1 c4wX .none .none (PVal.str "3") TYPE_INT (by decide) rfl rfl rfl
      (by decide) (by decide)
  · exact h.2.2 c4wD .none .none (by decide) rfl (by decide)

/-- C5 (amended): with 51 reported entities under the 50 cap, a display
category yields exactly 50 options plus the overflow warning; with exactly 2
entities and a neither-display-nor-rawinput category, the `All` pseudo-option
(value comma-joining both gids) is prepended for 3 options in total, and no
warning is set. -/
theorem claim_C5 :
    optLen (fillInputTreeWithOptions (ext51 { display := true, rawinput := false }) 1
      (Option.some 7) (.cons dtNode .nil)) = Option.some 50 ∧
    optWarn (fillInputTreeWithOptions (ext51 { display := true, rawinput := false }) 1
      (Option.some 7) (.cons dtNode .nil)) = Option.some (Option.some WARNING_OVERFLOW) ∧
    optLen (fillInputTreeWithOptions (ext2 { display := false, rawinput := false }) 1
      (Option.some 7) (.cons dtNode .nil)) = Option.some 3 ∧
    (match fillInputTreeWithOptions (ext2 { display := false, rawinput := false }) 1
        (Option.some 7) (.cons dtNode .nil) with
     | Option.some (.cons (.mk _ (.some (.cons h _)) _) _) =>
        Option.some (h.core.name, h.core.value)
     | _ => Option.none) = Option.some ("All", "g0,g1") ∧
    optWarn (fillInputTreeWithOptions (ext2 { display := false, rawinput := false }) 1
      (Option.some 7) (.cons dtNode .nil)) = Option.some Option.none := by decide

/-- C5 counterexample: for the same 51-entity store under a
neither-display-nor-rawinput category, the node receives 51 options (the
`All` pseudo-option is prepended on top of the 50-row page), not the 50 the
claim states for every category. -/
theorem claim_C5_counterexample :
    optLen (fillInputTreeWithOptions (ext51 { display := false, rawinput := false }) 1
      (Option.some 7) (.cons dtNode .nil)) = Option.some 51 ∧ (51 : Nat) ≠ 50 := by decide

/-- C6: the DICT field `weights` with float elements gathers
`weights_parameters_a = 1.5` and `weights_parameters_b = 2.5` into
`{a: 1.5, b: 2.5}`; both consumed keys land on the skip list, so the
like-named sibling rows contribute nothing to the result. -/
theorem claim_C6 :
    (convertUiInputs extStub (.cons wRow (.cons waRow (.cons wbRow .nil)))
      [("weights_parameters_a", PVal.str "1.5"), ("weights_parameters_b", PVal.str "2.5")]
      true).map (fun st => (st.kwa, st.toSkip))
    = .ok ([("weights", OVal.dict [("a", DVal.r (mkRat 3 2)), ("b", DVal.r (mkRat 5 2))])],
        ["weights_parameters_a", "weights_parameters_b"]) := by decide

/-- The promoted `a` node returned for the C7 scenario. -/
def c7aOut : Node := .mk
  { name := "a", type_ := Option.some TYPE_FLOAT, label := Option.some "linear__la",
    default := Option.some (PVal.str "va") } .none .none

/-- The promoted `b` node returned for the C7 scenario. -/
def c7bOut : Node := .mk
  { name := "b", type_ := Option.some TYPE_FLOAT, label := Option.some "linear__lb",
    default := Option.some (PVal.str "vb") } .none .none

/-- C7: with `coupling` unchecked, saved value `linear` and nested attributes
`[a, b]` under the `linear` option, the result promotes `a` and `b` (omitting
`coupling`), their labels prefixed through the extended `linear_` prefix. -/
theorem claim_C7 :
    selectSimulatorInputs (Option.some (.cons couplingN .nil)) selC ""
      = Option.some (.cons c7aOut (.cons c7bOut .nil)) ∧
    (match selectSimulatorInputs (Option.some (.cons couplingN .nil)) selC "" with
     | Option.some r => r.names
     | Option.none => []) = ["a", "b"] ∧
    pyStartswith "linear__la" "linear_" = true ∧
    pyStartswith "linear__lb" "linear_" = true := by decide

/-- C8: `fill_defaults` is idempotent — a tree it returns is returned
unchanged when filled again with the same data. -/
theorem claim_C8 (l : NodeList) (data : Kwargs) (fub : Bool) (l' : NodeList)
    (h : fillDefaults l data fub = Option.some l') :
    fillDefaults l' data fub = Option.some l' :=
  fillDefaults_idem l data fub l' h

/-- The selected option of the C8 witness tree. -/
def c8wOpt : Node := .mk { name := "o", value := "v" } .none
  (.some (.cons (.mk { name := "y", type_ := Option.some TYPE_INT } .none .none) .nil))

/-- The C8 witness tree: a select field with one option carrying a nested
attribute. -/
def c8wTree : NodeList := .cons
  (.mk { name := "x", type_ := Option.some TYPE_SELECT } (.some (.cons c8wOpt .nil)) .none)
  .nil

/-- The C8 witness data. -/
def c8wData : Kwargs := [("x", PVal.str "v"), ("y", PVal.str "7")]

/-- The filled C8 witness option. -/
def c8wOptOut : Node := .mk { name := "o", value := "v" } .none
  (.some (.cons
    (.mk { name := "y", type_ := Option.some TYPE_INT, default := Option.some (PVal.str "7") }
      .none .none) .nil))

/-- The filled C8 witness tree. -/
def c8wOut : NodeList := .cons
  (.mk { name := "x", type_ := Option.some TYPE_SELECT, default := Option.some (PVal.str "v") }
    (.some (.cons c8wOptOut .nil)) .none)
  .nil

/-- C8 witness: a concrete fill, then the idempotency theorem on its output. -/
theorem claim_C8_witness :
    fillDefaults c8wTree c8wData false = Option.some c8wOut ∧
    fillDefaults c8wOut c8wData false = Option.some c8wOut :=
  ⟨by decide, claim_C8 c8wTree c8wData false c8wOut (by decide)⟩

/-- C9: numeric range validation never raises — an INT row with a parsable
value converts to that value whatever the declared bounds, and in the
concrete out-of-range scenarios (INT 15, FLOAT 10.5 and ARRAY [1,15,3] under
bounds 0..10) the value is returned unchanged with exactly one warning
logged. -/
theorem claim_C9 :
    (∀ (ext : Ext) (core : NodeCore) (s : String) (n : Int),
      core.type_ = Option.some TYPE_INT →
      pyContains core.name KEYWORD_PARAMS = false →
      ¬(s = "" ∨ s = "None") →
      pyParseInt s = Option.some n →
      ¬(core.required = Option.some true ∧ s = "") →
      (convertUiInputs ext (.cons (.mk core .none .none) .nil)
        [(core.name, PVal.str s)] true).map ConvSt.kwa
        = .ok [(core.name, OVal.i n)]) ∧
    (convertUiInputs extStub (.cons nRowR .nil) [("n", PVal.str "15")] true).map
      (fun st => (st.kwa, st.warnings.length)) = .ok ([("n", OVal.i 15)], 1) ∧
    (convertUiInputs extStub (.cons fRowR .nil) [("f", PVal.str "10.5")] true).map
      (fun st => (st.kwa, st.warnings.length)) = .ok ([("f", OVal.r (mkRat 21 2))], 1) ∧
    (convertUiInputs extStub (.cons aRow .nil) [("ar", PVal.str "1,15,3")] true).map
      (fun st => (st.kwa, st.warnings.length)) = .ok ([("ar", OVal.arr [1, 15, 3])], 1) :=
  ⟨convert_int_ranged, by decide, by decide, by decide⟩

/-- C9 witness: the general INT clause applied to the bounded row `n` and the
out-of-range value 15. -/
theorem claim_C9_witness :
    (convertUiInputs extStub (.cons (.mk nRowR.core .none .none) .nil)
      [(nRowR.core.name, PVal.str "15")] true).map ConvSt.kwa
      = .ok [(nRowR.core.name, OVal.i 15)] :=
  claim_C9.1 extStub nRowR.core "15" 15 rfl (by decide) (by decide) (by decide) (by decide)

/-- C10: a required node carrying a non-empty option list, with no declared
default, whose name is absent from the submission (and not introduced by the
first pass or by earlier nested inserts), makes `append_required_defaults`
fail on the unguarded `kwargs[entry[KEY_NAME]]` read. -/
theorem claim_C10 (l : NodeList) (kwargs : Kwargs) (core : NodeCore)
    (oc : NodeCore) (oo oa : NLOpt) (orest : NodeList) (a : NLOpt)
    (hmem : Node.mk core (NLOpt.some (.cons (.mk oc oo oa) orest)) a ∈ l.toList)
    (hreq : core.required = Option.some true)
    (habs : kwMem kwargs core.name = false)
    (hno : ∀ core' o' a', Node.mk core' o' a' ∈ l.toList → core'.name = core.name →
      core'.default = Option.none)
    (hnest : core.name ∉ nestedNames l) :
    appendRequiredDefaults kwargs (NLOpt.some l) = Option.none := by
  rw [appendRequiredDefaults]
  rw [appendRDMain]
  rcases h1 : appendRDLoop1 kwargs l with _ | kw1
  · rfl
  · simp only []
    have habs1 := appendRDLoop1_absent l kwargs kw1 core.name habs
      (fun c' o' a' hm he => Or.inl (hno c' o' a' hm he)) h1
    exact appendRDLoop2_fails l kw1 core oc oo oa orest a hmem hreq habs1 hnest

/-- The required, defaultless select field of the C10 witness. -/
def c10wCore : NodeCore :=
  { name := "x", type_ := Option.some TYPE_SELECT, required := Option.some true }

/-- The single option of the C10 witness field. -/
def c10wOptCore : NodeCore := { name := "o", value := "v" }

/-- The C10 witness tree. -/
def c10wTree : NodeList := .cons
  (.mk c10wCore (.some (.cons (.mk c10wOptCore .none .none) .nil)) .none) .nil

/-- C10 witness: the theorem applied to the concrete tree with an empty
submission — the call fails. -/
theorem claim_C10_witness : appendRequiredDefaults [] (NLOpt.some c10wTree) = Option.none :=
  claim_C10 c10wTree [] c10wCore c10wOptCore .none .none .nil .none
    (List.mem_cons_self _ _)
    rfl (by decide)
    (fun c' o' a' hm he => by
      rw [show c10wTree.toList
          = [Node.mk c10wCore (.some (.cons (.mk c10wOptCore .none .none) .nil)) .none]
        from rfl] at hm
      simp only [List.mem_singleton] at hm
      obtain ⟨hc, _, _⟩ := Node.mk.inj hm
      subst hc
      rfl)
    (by decide)

end TVB
